import Mathlib

/-!
Shallow embedding of the adjudication-coordination core of the CEDARS
repository (`src/cedars/app/db.py` and `src/cedars/app/ops.py`).

Modelling conventions:
* Mongo documents become Lean structures whose fields carry the keys used by
  the source; `ObjectId` values and patient ids are modelled as `Nat`,
  dates (`datetime`) as `Nat` (ordinal day), strings stay `String`.
* A mongo collection is a `List` of documents in insertion order;
  `update_one` updates the first matching document, `find_one` is
  `List.find?`, `find(...).sort(...)` is a stable sort of the filtered list.
* The Flask session dict becomes the `Session` structure; its `index` entry
  is an `Int` (a Python int).  List access at a negative index (Python
  wrap-around) is not modelled; the theorems below only use states with a
  non-negative index.
* The Python `while` loop in `ops.get_next_annotation_index` is modelled
  with explicit fuel (`none` = the loop has not exited within `fuel`
  iterations), so divergence of the source loop is expressible.
* `db.update_event_date` and `db.delete_event_date` are called from
  `ops.save_adjudications` but are absent from `src/cedars/app/db.py`;
  they are modelled from the spec (see their doc comments).
* Identifiers follow the source names except where the name is not usable
  here; the doc comment of each such definition names the source symbol.
-/

namespace Cedars

/-- Mongo `update_one`: update the first element satisfying `p` with `f`. -/
def update_one (p : α → Bool) (f : α → α) : List α → List α
  | [] => []
  | x :: xs => if p x then f x :: xs else x :: update_one p f xs

/-- Stable insertion, used to model a mongo `sort`. -/
def insort (le : α → α → Bool) (a : α) : List α → List α
  | [] => [a]
  | b :: bs => if le a b then a :: b :: bs else b :: insort le a bs

/-- Stable sort (insertion sort) modelling mongo's `find(...).sort(...)`. -/
def sortBy (le : α → α → Bool) (l : List α) : List α := l.foldr (insort le) []

/-- A document of the `PATIENTS` collection (see `db.upload_notes`). -/
structure PatientDoc where
  patient_id : Nat
  reviewed : Bool
  locked : Bool
  updated : Bool
  admin_locked : Bool
  reviewed_by : Option String
  deriving DecidableEq, Inhabited

/-- A document of the `NOTES` collection. -/
structure NoteDoc where
  text_id : Nat
  patient_id : Nat
  text_date : Nat
  reviewed : Bool
  reviewed_by : Option String
  deriving DecidableEq, Inhabited

/-- A document of the `ANNOTATIONS` collection.  The `skip` field is the
flag used by the spec's Event Propagation Rule (§4.4); the rule's db-side
implementation (`db.update_event_date` / `db.delete_event_date`) is missing
from `src/cedars/app/db.py` and is modelled from the spec below. -/
structure AnnotationDoc where
  _id : Nat
  patient_id : Nat
  note_id : Nat
  text_date : Nat
  sentence : String
  sentence_number : Nat
  sentence_start : Nat
  isNegated : Bool
  reviewed : Bool
  event_date : Option Nat
  skip : Bool
  deriving DecidableEq, Inhabited

/-- A document of the `QUERY` collection (see `db.save_query`). -/
structure QueryDoc where
  query : String
  exclude_negated : Bool
  hide_duplicates : Bool
  skip_after_event : Bool
  date_min : Option Nat
  date_max : Option Nat
  current : Bool
  deriving DecidableEq, Inhabited

/-- The persistent store: the collections touched by the adjudication core. -/
structure Store where
  annotations : List AnnotationDoc
  patients : List PatientDoc
  notes : List NoteDoc
  deriving DecidableEq, Inhabited

/-! ### db.py operations -/

/-- `db.get_annotation`: `ANNOTATIONS.find_one({"_id": annotation_id})`. -/
def get_annotation_by_id (st : Store) (annotation_id : Nat) :
    Option AnnotationDoc :=
  st.annotations.find? (fun a => a._id == annotation_id)

/-- `db.mark_annotation_reviewed`. -/
def mark_annotation_reviewed (st : Store) (annotation_id : Nat) : Store :=
  { st with
    annotations := update_one (fun a => a._id == annotation_id)
      (fun a => { a with reviewed := true }) st.annotations }

/-- `db.update_annotation_date`: sets `event_date` on the annotation,
unconditionally. -/
def update_annotation_date (st : Store) (annotation_id : Nat)
    (new_date : Nat) : Store :=
  { st with
    annotations := update_one (fun a => a._id == annotation_id)
      (fun a => { a with event_date := some new_date }) st.annotations }

/-- `db.delete_annotation_date`: sets `event_date` to `None`. -/
def delete_annotation_date (st : Store) (annotation_id : Nat) : Store :=
  { st with
    annotations := update_one (fun a => a._id == annotation_id)
      (fun a => { a with event_date := none }) st.annotations }

/-- `db.mark_patient_reviewed` (with the default `is_reviewed = True`). -/
def mark_patient_reviewed (st : Store) (patient_id : Nat)
    (reviewed_by : String) : Store :=
  { st with
    patients := update_one (fun p => p.patient_id == patient_id)
      (fun p => { p with reviewed := true, reviewed_by := some reviewed_by })
      st.patients }

/-- `db.mark_note_reviewed`. -/
def mark_note_reviewed (st : Store) (note_id : Nat)
    (reviewed_by : String) : Store :=
  { st with
    notes := update_one (fun n => n.text_id == note_id)
      (fun n => { n with reviewed := true, reviewed_by := some reviewed_by })
      st.notes }

/-- `db.set_patient_lock_status`: a single unconditional `update_one` on the
`locked` field. -/
def set_patient_lock_status (st : Store) (patient_id : Nat)
    (status : Bool) : Store :=
  { st with
    patients := update_one (fun p => p.patient_id == patient_id)
      (fun p => { p with locked := status }) st.patients }

/-- The sort key of `db.get_patient_annotation_ids`:
`[("note_id", 1), ("text_date", 1), ("sentence_number", 1)]`. -/
def annotation_order (x y : AnnotationDoc) : Bool :=
  Nat.blt x.note_id y.note_id ||
    (x.note_id == y.note_id &&
      (Nat.blt x.text_date y.text_date ||
        (x.text_date == y.text_date &&
          Nat.ble x.sentence_number y.sentence_number)))

/-- `db.get_patient_annotation_ids` with its default `reviewed = False`:
ids of the patient's non-reviewed, non-negated annotations, sorted. -/
def get_patient_annotation_ids (st : Store) (p_id : Nat) : List Nat :=
  (sortBy annotation_order
    (st.annotations.filter
      (fun a => a.patient_id == p_id && a.reviewed == false &&
        a.isNegated == false))).map (fun a => a._id)

/-- `db.get_event_date`: the first `event_date` of the patient's annotations
with a non-null `event_date`, sorted by `event_date` ascending. -/
def get_event_date (st : Store) (patient_id : Nat) : Option Nat :=
  match sortBy (fun x y => Nat.ble (x.event_date.getD 0) (y.event_date.getD 0))
      (st.annotations.filter
        (fun a => a.patient_id == patient_id && a.event_date.isSome)) with
  | [] => none
  | a :: _ => a.event_date

/-- The loop body of `db.get_patients_to_annotate`: walk the patients with
`reviewed = False` in order and return the first one that has at least one
annotation id pending. -/
def patients_to_annotate_loop (st : Store) : List PatientDoc → Option Nat
  | [] => none
  | p :: ps =>
    if (get_patient_annotation_ids st p.patient_id).length > 0 then
      some p.patient_id
    else patients_to_annotate_loop st ps

/-- `db.get_patients_to_annotate`: note the mongo filter is only
`{"reviewed": False}` — the `locked` flag is not part of the query. -/
def get_patients_to_annotate (st : Store) : Option Nat :=
  patients_to_annotate_loop st
    (st.patients.filter (fun p => p.reviewed == false))

/-- `db.save_query` on the `QUERY` collection: clear `current` on the (one)
current document via `update_one`, then insert the new query with
`current = True`. -/
def save_query (col : List QueryDoc) (query : String)
    (exclude_negated hide_duplicates skip_after_event : Bool)
    (date_min date_max : Option Nat) : List QueryDoc :=
  let info : QueryDoc :=
    { query := query, exclude_negated := exclude_negated,
      hide_duplicates := hide_duplicates,
      skip_after_event := skip_after_event,
      date_min := date_min, date_max := date_max, current := true }
  (update_one (fun d => d.current) (fun d => { d with current := false })
    col) ++ [info]

/-! ### ops.py: the session, navigation and the adjudication transitions -/

/-- The part of the Flask session used by `ops.save_adjudications`. -/
structure Session where
  patient_id : Option Nat
  index : Int
  total_count : Nat
  annotations : List Nat
  all_annotation_index : List Nat
  unreviewed_annotations_index : List Nat
  deriving DecidableEq, Inhabited

/-- `shift_index_backwards` inside `ops._move_to_previous_annotation`:
`session["index"] = max(0, session["index"] - shift_value)`. -/
def shift_index_backwards (shift_value : Nat) (s : Session) : Session :=
  { s with index := max 0 (s.index - shift_value) }

/-- `shift_index_forwards` inside `ops._move_to_next_annotation`:
`session["index"] = min(session["total_count"] - 1, session["index"] + shift_value)`. -/
def shift_index_forwards (shift_value : Nat) (s : Session) : Session :=
  { s with index := min ((s.total_count : Int) - 1) (s.index + shift_value) }

/-- `ops._shift_first_index`: `session["index"] = 0`. -/
def shift_first_index (s : Session) : Session := { s with index := 0 }

/-- `ops._shift_last_index`: `session["index"] = session["total_count"] - 1`. -/
def shift_last_index (s : Session) : Session :=
  { s with index := (s.total_count : Int) - 1 }

/-- The loop of `ops.get_next_annotation_index`, with explicit fuel.  One
fuel unit is one pass of the Python `while i != current_index` body; `none`
means the loop has not exited within `fuel` passes. -/
def scanLoop (unreviewed : List Nat) (current_index : Nat) :
    Nat → Nat → Option Nat
  | _, 0 => none
  | i, fuel + 1 =>
    if i = current_index then some i
    else
      let i' := if i = unreviewed.length then 0 else i
      if unreviewed.getD i' 0 = 1 then some i'
      else scanLoop unreviewed current_index (i' + 1) fuel

/-- `ops.get_next_annotation_index`: circular scan for the next entry equal
to `1`, starting at `current_index + 1`. -/
def get_next_annotation_index (unreviewed : List Nat)
    (current_index : Nat) (fuel : Nat) : Option Nat :=
  scanLoop unreviewed current_index (current_index + 1) fuel

/-- Python's `str.lower` on one character (ASCII case folding). -/
def lowerChar (c : Char) : Char :=
  if 65 ≤ c.toNat ∧ c.toNat ≤ 90 then Char.ofNat (c.toNat + 32) else c

/-- Python's `str.strip` whitespace set. -/
def isPySpace (c : Char) : Bool :=
  c = ' ' || c = '\t' || c = '\n' || c = '\x0d' || c = '\x0b' || c = '\x0c'

/-- Drop leading and trailing whitespace (Python `str.strip`). -/
def trimChars (l : List Char) : List Char :=
  ((l.dropWhile isPySpace).reverse.dropWhile isPySpace).reverse

/-- The `.lower().strip()` normalization used by `ops.format_annotations`
in the `hide_duplicates` branch, modelled character-wise. -/
def normSentence (s : String) : String :=
  String.mk (trimChars (s.data.map lowerChar))

/-- The `hide_duplicates = True` scan of `ops.format_annotations`: one set of
normalized sentences for the whole list; an index is recorded for removal
when its normalized sentence was already seen. -/
def dup_hide_go : List AnnotationDoc → Nat → List String → List Nat
  | [], _, _ => []
  | a :: rest, i, seen_sentences =>
    if normSentence a.sentence ∈ seen_sentences then
      i :: dup_hide_go rest (i + 1) seen_sentences
    else dup_hide_go rest (i + 1) (normSentence a.sentence :: seen_sentences)

/-- The `hide_duplicates = False` scan of `ops.format_annotations`: a set of
`sentence_start` offsets that is cleared whenever the `note_id` changes. -/
def dup_show_go : List AnnotationDoc → Nat → Option Nat → List Nat → List Nat
  | [], _, _, _ => []
  | a :: rest, i, prev_note_id, seen_sentence_indices =>
    let seen := if prev_note_id = some a.note_id then seen_sentence_indices
      else []
    if a.sentence_start ∈ seen then
      i :: dup_show_go rest (i + 1) (some a.note_id) seen
    else dup_show_go rest (i + 1) (some a.note_id) (a.sentence_start :: seen)

/-- `indices_to_remove` as computed by `ops.format_annotations`. -/
def indices_to_remove (anns : List AnnotationDoc)
    (hide_duplicates : Bool) : List Nat :=
  if hide_duplicates then dup_hide_go anns 0 []
  else dup_show_go anns 0 none []

/-- The `note_id` of the annotation at position `k`. -/
def noteAt (l : List AnnotationDoc) (k : Nat) : Nat :=
  (l.getD k default).note_id

/-- The `sentence_start` of the annotation at position `k`. -/
def startAt (l : List AnnotationDoc) (k : Nat) : Nat :=
  (l.getD k default).sentence_start

/-- The normalized (`.lower().strip()`) sentence of the annotation at
position `k`. -/
def normAt (l : List AnnotationDoc) (k : Nat) : String :=
  normSentence ((l.getD k default).sentence)

/-- The net effect of popping a list of positions one by one (last position
first): `erase_indices l (d :: ds)` pops `ds` first, then position `d`. -/
def erase_indices (l : List α) : List Nat → List α
  | [] => l
  | d :: ds => (erase_indices l ds).eraseIdx d

/-- The elements of `l` whose positions (counted from `i`) are not in
`ds`. -/
def keep_go (ds : List Nat) : List α → Nat → List α
  | [], _ => []
  | x :: xs, i => if i ∈ ds then keep_go ds xs (i + 1)
    else x :: keep_go ds xs (i + 1)

/-- The result dictionary of `ops.format_annotations`. -/
structure FormatResult where
  annotations : List Nat
  all_annotation_index : List Nat
  unreviewed_annotations_index : List Nat
  total : Nat
  deriving DecidableEq, Inhabited

/-- `ops.format_annotations`: compute `indices_to_remove`, then walk them in
reverse (descending) order, marking each removed annotation reviewed in the
store and popping it from the list, and finally build the result record.
(`indices_to_remove.sort(reverse=True)` is the reverse of the ascending list
produced by the scans.) -/
def format_annotations (st : Store) (anns : List AnnotationDoc)
    (hide_duplicates : Bool) : Store × FormatResult :=
  let toRemove := indices_to_remove anns hide_duplicates
  let stAnns := (toRemove.reverse).foldl
    (fun acc idx =>
      (mark_annotation_reviewed acc.1 ((acc.2.getD idx default)._id),
        acc.2.eraseIdx idx))
    (st, anns)
  let remaining := stAnns.2
  let result : FormatResult :=
    if remaining.length > 0 then
      { annotations := remaining.map (fun a => a._id),
        all_annotation_index := List.range remaining.length,
        unreviewed_annotations_index :=
          remaining.map (fun x => if !x.reviewed then 1 else 0),
        total := remaining.length }
    else { annotations := [], all_annotation_index := [],
           unreviewed_annotations_index := [], total := 0 }
  (stAnns.1, result)

/-- `ops._adjudicate_annotation` (the closure inside
`ops.save_adjudications`), as a transition on store and session.  The value
of `db.get_search_query(query_key="skip_after_event")` is the read-only
parameter `skip_after_event`; `username` is `current_user.username`.
`none` models a crashed request (a missing document the Python would choke
on) or exhaustion of the scan fuel. -/
def adjudicate_annotation_step (skip_after_event : Bool) (username : String)
    (updated_date : Bool) (fuel : Nat) (st : Store) (s : Session) :
    Option (Store × Session) :=
  match s.patient_id with
  | none => none
  | some current_patient_id =>
    let current_annotation_id := s.annotations.getD s.index.toNat 0
    let stS :=
      if updated_date && skip_after_event then
        (set_patient_lock_status st current_patient_id false,
          { s with patient_id := none })
      else (st, s)
    let st := stS.1
    let s := stS.2
    if s.unreviewed_annotations_index.getD s.index.toNat 0 == 1 then
      let st := mark_annotation_reviewed st current_annotation_id
      let s := { s with
        unreviewed_annotations_index :=
          s.unreviewed_annotations_index.set s.index.toNat 0 }
      if (get_patient_annotation_ids st current_patient_id).length == 0 then
        let st := mark_patient_reviewed st current_patient_id username
        let st := set_patient_lock_status st current_patient_id false
        some (st, { s with patient_id := none })
      else if (get_event_date st current_patient_id).isSome then
        match get_annotation_by_id st current_annotation_id with
        | none => none
        | some ann =>
          let st := mark_note_reviewed st ann.note_id username
          let st := mark_patient_reviewed st current_patient_id username
          if skip_after_event then
            some (set_patient_lock_status st current_patient_id false,
              { s with patient_id := none })
          else some (st, s)
      else
        match get_next_annotation_index s.unreviewed_annotations_index
            s.index.toNat fuel with
        | none => none
        | some j => some (st, { s with index := (j : Int) })
    else if s.unreviewed_annotations_index.contains 1 then
      if (get_event_date st current_patient_id).isSome then
        match get_annotation_by_id st current_annotation_id with
        | none => none
        | some ann =>
          some (mark_patient_reviewed (mark_note_reviewed st ann.note_id
            username) current_patient_id username, s)
      else
        match get_next_annotation_index s.unreviewed_annotations_index
            s.index.toNat fuel with
        | none => none
        | some j => some (st, { s with index := (j : Int) })
    else
      let is_last_note : Bool := decide (s.index ≥ (s.total_count : Int) - 1)
      if is_last_note || (updated_date && skip_after_event) then
        some (set_patient_lock_status st current_patient_id false, s)
      else some (st, { s with index := s.index + 1 })

/-- Modelled from the spec: `db.update_event_date` is called by
`ops.save_adjudications` (the `new_date` action) but is not defined in
`src/cedars/app/db.py`.  Per spec §4.3 it records `eventDate = date` on the
current annotation, and per §4.4, when `skipAfterEvent` is set, every
annotation of the same patient whose note text date is strictly after the
assigned event date is marked `skip = true`, without setting
`reviewed = true`. -/
def update_event_date (st : Store) (patient_id : Nat) (new_date : Nat)
    (annotation_id : Nat) (skip_after_event : Bool) : Store :=
  let st := update_annotation_date st annotation_id new_date
  if skip_after_event then
    { st with
      annotations := st.annotations.map (fun a =>
        if a.patient_id == patient_id && Nat.blt new_date a.text_date then
          { a with skip := true }
        else a) }
  else st

/-- Modelled from the spec: `db.delete_event_date` is called by
`ops.save_adjudications` (the `del_date` action) but is not defined in
`src/cedars/app/db.py`.  Per spec §4.3/§4.4 it clears `eventDate` on the
patient's anchor annotation, reverts that annotation's `reviewed` flag to
`false`, and reverts every `skip = true` annotation of the patient to
`skip = false`. -/
def delete_event_date (st : Store) (patient_id : Nat) : Store :=
  { st with
    annotations := st.annotations.map (fun a =>
      if a.patient_id == patient_id then
        let a := if a.skip then { a with skip := false } else a
        if a.event_date.isSome then
          { a with event_date := none, reviewed := false }
        else a
      else a) }

/-- `ops._update_event_date` (the `new_date` action): write the event date
through `db.update_event_date`, then run `_adjudicate_annotation` with
`updated_date = True`. -/
def new_date_action (skip_after_event : Bool) (username : String)
    (new_date : Nat) (fuel : Nat) (st : Store) (s : Session) :
    Option (Store × Session) :=
  match s.patient_id with
  | none => none
  | some patient_id =>
    let current_annotation_id := s.annotations.getD s.index.toNat 0
    adjudicate_annotation_step skip_after_event username true fuel
      (update_event_date st patient_id new_date current_annotation_id
        skip_after_event) s

/-- `ops._delete_event_date` (the `del_date` action): only
`db.delete_event_date(patient_id)` is called; the session is not touched. -/
def del_date_action (st : Store) (s : Session) : Option (Store × Session) :=
  match s.patient_id with
  | none => none
  | some patient_id => some (delete_event_date st patient_id, s)

/-! ### The at-most-one-event-date invariant and concrete example stores -/

/-- How many annotations of a patient hold a non-null `event_date`. -/
def event_date_count (st : Store) (patient_id : Nat) : Nat :=
  (st.annotations.filter
    (fun a => a.patient_id == patient_id && a.event_date.isSome)).length

/-- Invariant of spec §3/§8: for every patient (equivalently, for every
patient id occurring among the annotations), at most one annotation holds a
non-null `event_date`. -/
def at_most_one_event_date (st : Store) : Prop :=
  ∀ pid ∈ st.annotations.map (fun a => a.patient_id),
    event_date_count st pid ≤ 1

instance (st : Store) : Decidable (at_most_one_event_date st) :=
  decidable_of_iff
    (∀ pid ∈ st.annotations.map (fun a : AnnotationDoc => a.patient_id),
      event_date_count st pid ≤ 1) Iff.rfl

/-- A plain pending annotation record used to build concrete stores. -/
def mkAnn (id pid note date : Nat) (sent : String) (sn ss : Nat) :
    AnnotationDoc :=
  { _id := id, patient_id := pid, note_id := note, text_date := date,
    sentence := sent, sentence_number := sn, sentence_start := ss,
    isNegated := false, reviewed := false, event_date := none,
    skip := false }

/-- A plain patient record used to build concrete stores. -/
def mkPatient (pid : Nat) (reviewed locked : Bool) : PatientDoc :=
  { patient_id := pid, reviewed := reviewed, locked := locked,
    updated := false, admin_locked := false, reviewed_by := none }

/-- Store with two same-patient annotations, `_id = 1` holding an event
date and `_id = 2` holding none. -/
def storeTwoAnnOneDate : Store :=
  { annotations :=
      [ { mkAnn 1 7 1 0 "s1" 0 0 with event_date := some 5 },
        mkAnn 2 7 1 0 "s2" 1 10 ],
    patients := [mkPatient 7 false false], notes := [] }

/-- Store with patients P1 (locked, unreviewed, one pending annotation),
P2 (reviewed), P3 (unlocked, unreviewed, one pending annotation). -/
def storeLockedFirst : Store :=
  { annotations := [mkAnn 1 1 1 0 "s1" 0 0, mkAnn 3 3 3 0 "s3" 0 0],
    patients := [mkPatient 1 false true, mkPatient 2 true false,
      mkPatient 3 false false],
    notes := [] }

/-- Store with patients P1 (locked, unreviewed, no annotations),
P2 (reviewed), P3 (unlocked, unreviewed, one pending annotation). -/
def storeLockedEmptyFirst : Store :=
  { annotations := [mkAnn 3 3 3 0 "s3" 0 0],
    patients := [mkPatient 1 false true, mkPatient 2 true false,
      mkPatient 3 false false],
    notes := [] }

/-- Store with two pending annotations of patient 1, used to exercise the
adjudicate transition. -/
def storeTwoPending : Store :=
  { annotations := [mkAnn 1 1 1 0 "s1" 0 0, mkAnn 2 1 1 0 "s2" 1 10],
    patients := [mkPatient 1 false true],
    notes :=
      [ { text_id := 1, patient_id := 1, text_date := 0, reviewed := false,
          reviewed_by := none } ] }

/-- A session on `storeTwoPending` whose cursor sits on an entry whose
pending bit is already 0. -/
def sessionBitZero : Session :=
  { patient_id := some 1, index := 0, total_count := 2,
    annotations := [1, 2], all_annotation_index := [0, 1],
    unreviewed_annotations_index := [0, 1] }

/-- Store for the event-date round trip: patient 1 with two pending
annotations (ids 1 and 2), no event date, no skips. -/
def storeRoundTrip : Store :=
  { annotations := [mkAnn 1 1 1 0 "s1" 0 0, mkAnn 2 1 1 0 "s2" 1 10],
    patients := [mkPatient 1 false true],
    notes :=
      [ { text_id := 1, patient_id := 1, text_date := 0, reviewed := false,
          reviewed_by := none } ] }

/-- Session for the event-date round trip: cursor on annotation 1, both
pending bits set. -/
def sessionRoundTrip : Session :=
  { patient_id := some 1, index := 0, total_count := 2,
    annotations := [1, 2], all_annotation_index := [0, 1],
    unreviewed_annotations_index := [1, 1] }

/-- Scenario A: one patient, 3 annotations across 2 notes, where the first
and the third share the same normalized sentence text. -/
def annsScenarioA : List AnnotationDoc :=
  [mkAnn 1 1 1 0 "The Dog " 0 0, mkAnn 2 1 1 0 "other" 1 10,
    mkAnn 3 1 2 1 "the dog" 0 0]

/-- The store holding the Scenario A annotations. -/
def storeScenarioA : Store :=
  { annotations := annsScenarioA, patients := [mkPatient 1 false false],
    notes := [] }

/-! ### Generic lemmas about `update_one` -/

theorem insort_perm (le : α → α → Bool) (a : α) (l : List α) :
    List.Perm (insort le a l) (a :: l) := by
  induction l with
  | nil => simp [insort]
  | cons b bs ih =>
    simp only [insort]
    split
    · exact List.Perm.refl _
    · exact (List.Perm.cons b ih).trans (List.Perm.swap a b bs)

theorem sortBy_perm (le : α → α → Bool) (l : List α) :
    List.Perm (sortBy le l) l := by
  induction l with
  | nil => simp [sortBy]
  | cons a as ih =>
    exact ((insort_perm le a (sortBy le as)).trans (List.Perm.cons a ih))

theorem mem_sortBy (le : α → α → Bool) {l : List α} {x : α} :
    x ∈ sortBy le l ↔ x ∈ l := (sortBy_perm le l).mem_iff

theorem length_sortBy (le : α → α → Bool) (l : List α) :
    (sortBy le l).length = l.length := (sortBy_perm le l).length_eq

theorem update_one_eq_map (p : α → Bool) (f : α → α) :
    ∀ {l : List α}, (l.filter p).length ≤ 1 →
      update_one p f l = l.map (fun x => if p x then f x else x) := by
  intro l
  induction l with
  | nil => intro _; rfl
  | cons x xs ih =>
    intro h
    simp only [update_one, List.map_cons]
    by_cases hx : p x
    · rw [if_pos hx, if_pos hx]
      have hlen : (List.filter p xs).length = 0 := by
        rw [List.filter_cons_of_pos hx] at h
        simp only [List.length_cons] at h
        omega
      have hnone := List.filter_eq_nil_iff.mp (List.length_eq_zero.mp hlen)
      have hmapid : List.map (fun y => if p y then f y else y) xs = xs := by
        conv_rhs => rw [← List.map_id xs]
        apply List.map_congr_left
        intro y hy
        simp [hnone y hy]
      rw [hmapid]
    · rw [if_neg hx, if_neg hx]
      have hxs : (xs.filter p).length ≤ 1 := by
        rwa [List.filter_cons_of_neg hx] at h
      rw [ih hxs]

theorem filter_key_length_le_one {k : α → Nat} {c : Nat} :
    ∀ {l : List α}, (l.map k).Nodup →
      (l.filter (fun x => k x == c)).length ≤ 1 := by
  intro l
  induction l with
  | nil => intro _; simp
  | cons x xs ih =>
    intro h
    rw [List.map_cons, List.nodup_cons] at h
    by_cases hx : k x = c
    · rw [List.filter_cons_of_pos (by simp [hx])]
      have : xs.filter (fun x => k x == c) = [] := by
        rw [List.filter_eq_nil_iff]
        intro y hy hyc
        exact h.1 (by
          rw [hx, ← (by simpa using hyc : k y = c)]
          exact List.mem_map_of_mem k hy)
      simp [this]
    · rw [List.filter_cons_of_neg (by simp [hx])]
      exact ih h.2

theorem update_one_no_match {p : α → Bool} {f : α → α} :
    ∀ {l : List α}, (∀ x ∈ l, ¬ p x = true) → update_one p f l = l := by
  intro l
  induction l with
  | nil => intro _; rfl
  | cons x xs ih =>
    intro h
    simp only [update_one, h x (by simp), if_neg]
    rw [ih (fun y hy => h y (by simp [hy]))]
    simp

/-! ### Claim theorems -/

/-- C4 [code_bug]: at `unreviewed_annotations = [0, 0]` and
`current_index = 0` the wrap-around scan of `ops.get_next_annotation_index`
never exits: no amount of loop iterations (fuel) produces a result, whereas
the function's own docstring (and the claim) promise that `current_index`
itself is returned when no other entry is `1`. -/
theorem c4_scan_diverges_at_zero :
    ∀ fuel, get_next_annotation_index [0, 0] 0 fuel = none := by
  have key : ∀ fuel, scanLoop [0, 0] 0 1 fuel = none ∧
      scanLoop [0, 0] 0 2 fuel = none := by
    intro fuel
    induction fuel with
    | zero => exact ⟨rfl, rfl⟩
    | succ n ih =>
      constructor
      · show scanLoop [0, 0] 0 1 (n + 1) = none
        simp only [scanLoop]
        norm_num
        exact ih.2
      · show scanLoop [0, 0] 0 2 (n + 1) = none
        simp only [scanLoop]
        norm_num
        exact ih.1
  intro fuel
  exact (key fuel).1

/-- C5 [counterexample]: `db.set_patient_lock_status` with `status = True`
on a patient that is already `reviewed = True` (claim: the record must be
left unchanged and failure reported) does set `locked = True`: the update is
unconditional. -/
theorem c5_counterexample :
    let pt : PatientDoc :=
      { patient_id := 1, reviewed := true, locked := false,
        updated := false, admin_locked := false, reviewed_by := none }
    let st : Store := { annotations := [], patients := [pt], notes := [] }
    pt.reviewed = true ∧ pt.locked = false ∧
      ((set_patient_lock_status st 1 true).patients.getD 0 default).locked
        = true := by
  decide

/-- C5 [amended]: `db.set_patient_lock_status` unconditionally sets the
`locked` flag of the (unique) matching patient to the given status,
regardless of its current `locked` and `reviewed` values, and leaves every
other patient unchanged; it returns no success indicator. -/
theorem c5_set_lock_unconditional (st : Store) (pid : Nat) (status : Bool)
    (pt : PatientDoc)
    (hnodup : (st.patients.map (fun p => p.patient_id)).Nodup)
    (hmem : pt ∈ st.patients) (hid : pt.patient_id = pid) :
    { pt with locked := status } ∈
        (set_patient_lock_status st pid status).patients ∧
      ∀ q ∈ st.patients, q.patient_id ≠ pid →
        q ∈ (set_patient_lock_status st pid status).patients := by
  have hmap := update_one_eq_map
    (fun p : PatientDoc => p.patient_id == pid)
    (fun p => { p with locked := status })
    (filter_key_length_le_one hnodup)
  constructor
  · show _ ∈ (set_patient_lock_status st pid status).patients
    simp only [set_patient_lock_status, hmap]
    have : ({ pt with locked := status } : PatientDoc) =
        (fun p : PatientDoc =>
          if p.patient_id == pid then { p with locked := status } else p) pt := by
      simp [hid]
    rw [this]
    exact List.mem_map_of_mem _ hmem
  · intro q hq hqid
    simp only [set_patient_lock_status, hmap]
    have : q = (fun p : PatientDoc =>
        if p.patient_id == pid then { p with locked := status } else p) q := by
      simp [hqid]
    rw [this]
    exact List.mem_map_of_mem _ hq

/-- C5 [witness]: the amended theorem at a concrete store: locking a
patient that is already reviewed still flips `locked` to `true`. -/
theorem c5_set_lock_unconditional_witness :
    let pt : PatientDoc :=
      { patient_id := 1, reviewed := true, locked := false,
        updated := false, admin_locked := false, reviewed_by := none }
    let st : Store := { annotations := [], patients := [pt], notes := [] }
    { pt with locked := true } ∈
        (set_patient_lock_status st 1 true).patients ∧
      ∀ q ∈ st.patients, q.patient_id ≠ 1 →
        q ∈ (set_patient_lock_status st 1 true).patients :=
  c5_set_lock_unconditional _ 1 true _ (by decide) (by decide) (by decide)

/-- C10 [confirmed]: if at most one document of the `QUERY` collection has
`current = True`, then after `db.save_query` exactly one document has
`current = True`, and any current document of the result is the newly
inserted query (which carries `current = True` and sits at the end). -/
theorem c10_save_query_unique_current (col : List QueryDoc) (q : String)
    (en hd sae : Bool) (dmin dmax : Option Nat)
    (h : col.countP (fun d => d.current) ≤ 1) :
    (save_query col q en hd sae dmin dmax).countP (fun d => d.current) = 1 ∧
      ∀ d ∈ save_query col q en hd sae dmin dmax, d.current = true →
        d = { query := q, exclude_negated := en, hide_duplicates := hd,
              skip_after_event := sae, date_min := dmin, date_max := dmax,
              current := true } := by
  have hclear : ∀ (c : List QueryDoc), c.countP (fun d => d.current) ≤ 1 →
      (update_one (fun d => d.current)
        (fun d => { d with current := false }) c).countP
        (fun d => d.current) = 0 := by
    intro c
    induction c with
    | nil => intro _; rfl
    | cons d ds ih =>
      intro hc
      by_cases hd1 : d.current
      · have hds : ds.countP (fun d => d.current) = 0 := by
          rw [List.countP_cons_of_pos _ _ (by simpa using hd1)] at hc
          omega
        simp only [update_one]
        rw [if_pos hd1, List.countP_cons_of_neg _ _ (by simp)]
        exact hds
      · simp only [update_one]
        rw [if_neg hd1, List.countP_cons_of_neg _ _ (by simpa using hd1)]
        apply ih
        rwa [List.countP_cons_of_neg _ _ (by simpa using hd1)] at hc
  have hc0 := hclear col h
  constructor
  · simp only [save_query, List.countP_append, hc0]
    rfl
  · intro d hdmem hdcur
    simp only [save_query, List.mem_append, List.mem_singleton] at hdmem
    rcases hdmem with hleft | hright
    · exfalso
      have := List.countP_eq_zero.mp hc0 d hleft
      simp [hdcur] at this
    · exact hright

/-- C10 [witness]: the theorem at a concrete one-element collection whose
document is current. -/
theorem c10_save_query_unique_current_witness :
    let old : QueryDoc :=
      { query := "old", exclude_negated := false, hide_duplicates := true,
        skip_after_event := false, date_min := none, date_max := none,
        current := true }
    ([old].countP (fun d => d.current) ≤ 1) ∧
      ((save_query [old] "new" false true false none none).countP
          (fun d => d.current) = 1 ∧
        ∀ d ∈ save_query [old] "new" false true false none none,
          d.current = true →
            d = { query := "new", exclude_negated := false,
                  hide_duplicates := true, skip_after_event := false,
                  date_min := none, date_max := none, current := true }) :=
  ⟨by decide, c10_save_query_unique_current [_] "new" false true false
    none none (by decide)⟩

/-- C9 [confirmed]: each navigation action of `ops.save_adjudications`
(`first_anno`, `prev_10`, `prev_1`, `next_1`, `next_10`, `last_anno`) sets
the cursor to `clamp(cursor + delta, 0, total_count - 1)` (with `first`/
`last` going to the two clamp extremes), and modifies nothing but the
cursor: restoring the cursor restores the whole session, so neither the
pending bit-vector nor any other session state is mutated, and the store is
never touched (the actions read and write only `session["index"]`). -/
theorem c9_navigation_clamps (s : Session) (shift : Nat)
    (h0 : 0 ≤ s.index) (hlast : s.index ≤ (s.total_count : Int) - 1) :
    ((shift_index_backwards shift s).index =
        max 0 (min ((s.total_count : Int) - 1) (s.index - shift)) ∧
      (shift_index_forwards shift s).index =
        max 0 (min ((s.total_count : Int) - 1) (s.index + shift)) ∧
      (shift_first_index s).index = 0 ∧
      (shift_last_index s).index = (s.total_count : Int) - 1) ∧
    (s.index = 0 → (shift_index_backwards 1 s).index = 0) ∧
    (s.index = (s.total_count : Int) - 1 →
      (shift_index_forwards 1 s).index = s.index) ∧
    ({ shift_index_backwards shift s with index := s.index } = s ∧
      { shift_index_forwards shift s with index := s.index } = s ∧
      { shift_first_index s with index := s.index } = s ∧
      { shift_last_index s with index := s.index } = s) := by
  refine ⟨⟨?_, ?_, rfl, rfl⟩, ?_, ?_, ?_, ?_, ?_, ?_⟩
  · simp only [shift_index_backwards]
    omega
  · simp only [shift_index_forwards]
    omega
  · intro h
    simp only [shift_index_backwards, h]
    omega
  · intro h
    simp only [shift_index_forwards, h]
    omega
  · cases s; rfl
  · cases s; rfl
  · cases s; rfl
  · cases s; rfl

/-- C9 [witness]: the theorem at a concrete session (cursor 0 of a
length-3 sequence, shift 1), plus the evaluated boundary behaviour. -/
theorem c9_navigation_clamps_witness :
    let s : Session :=
      { patient_id := some 1, index := 0, total_count := 3,
        annotations := [10, 11, 12], all_annotation_index := [0, 1, 2],
        unreviewed_annotations_index := [1, 1, 1] }
    ((0 : Int) ≤ s.index ∧ s.index ≤ (s.total_count : Int) - 1) ∧
    (((shift_index_backwards 1 s).index =
        max 0 (min ((s.total_count : Int) - 1) (s.index - 1)) ∧
      (shift_index_forwards 1 s).index =
        max 0 (min ((s.total_count : Int) - 1) (s.index + 1)) ∧
      (shift_first_index s).index = 0 ∧
      (shift_last_index s).index = (s.total_count : Int) - 1) ∧
    (s.index = 0 → (shift_index_backwards 1 s).index = 0) ∧
    (s.index = (s.total_count : Int) - 1 →
      (shift_index_forwards 1 s).index = s.index) ∧
    ({ shift_index_backwards 1 s with index := s.index } = s ∧
      { shift_index_forwards 1 s with index := s.index } = s ∧
      { shift_first_index s with index := s.index } = s ∧
      { shift_last_index s with index := s.index } = s)) :=
  ⟨⟨by decide, by decide⟩,
    c9_navigation_clamps _ 1 (by decide) (by decide)⟩

theorem nodup_key_inj {k : α → Nat} :
    ∀ {l : List α}, (l.map k).Nodup →
      ∀ {a b : α}, a ∈ l → b ∈ l → k a = k b → a = b := by
  intro l
  induction l with
  | nil => intro _ a b ha; cases ha
  | cons x xs ih =>
    intro h a b ha hb hk
    rw [List.map_cons, List.nodup_cons] at h
    rcases List.mem_cons.mp ha with rfl | ha' <;>
      rcases List.mem_cons.mp hb with rfl | hb'
    · rfl
    · exact absurd (hk ▸ List.mem_map_of_mem k hb') h.1
    · exact absurd (hk ▸ List.mem_map_of_mem k ha') h.1
    · exact ih h.2 ha' hb' hk

theorem patients_loop_first (st : Store) :
    ∀ (l : List PatientDoc) (p : Nat),
      patients_to_annotate_loop st l = some p →
      ∃ pre pt post, l = pre ++ pt :: post ∧ pt.patient_id = p ∧
        (get_patient_annotation_ids st p).length > 0 ∧
        ∀ q ∈ pre, (get_patient_annotation_ids st q.patient_id).length = 0 := by
  intro l
  induction l with
  | nil => intro p h; simp [patients_to_annotate_loop] at h
  | cons x xs ih =>
    intro p h
    simp only [patients_to_annotate_loop] at h
    by_cases hx : (get_patient_annotation_ids st x.patient_id).length > 0
    · rw [if_pos hx] at h
      obtain rfl : x.patient_id = p := Option.some.inj h
      exact ⟨[], x, xs, rfl, rfl, hx, by intro q hq; cases hq⟩
    · rw [if_neg hx] at h
      obtain ⟨pre, pt, post, heq, hid, hpos, hpre⟩ := ih p h
      refine ⟨x :: pre, pt, post, by rw [heq]; rfl, hid, hpos, ?_⟩
      intro q hq
      rcases List.mem_cons.mp hq with rfl | hq'
      · omega
      · exact hpre q hq'

/-- C3 [counterexample]: with P1 (locked, unreviewed, one pending
annotation), P2 (reviewed) and P3 (unlocked, unreviewed, one pending
annotation), `db.get_patients_to_annotate` returns the locked patient P1,
because its mongo filter is only `{"reviewed": False}` — contradicting the
claim that a patient whose `locked` flag is true is never returned. -/
theorem c3_counterexample :
    get_patients_to_annotate storeLockedFirst = some 1 ∧
      (storeLockedFirst.patients.getD 0 default).patient_id = 1 ∧
      (storeLockedFirst.patients.getD 0 default).locked = true := by
  decide

/-- C3 [amended]: `db.get_patients_to_annotate` returns the first patient
with `reviewed = false` — the `locked` flag is not consulted — that has at
least one pending (non-reviewed, non-negated) annotation; every earlier
unreviewed patient has an empty pending list, and a patient with an empty
pending list is never returned. -/
theorem c3_first_unreviewed_pending (st : Store) (p : Nat)
    (h : get_patients_to_annotate st = some p) :
    ∃ pre pt post,
      st.patients.filter (fun q => q.reviewed == false) =
          pre ++ pt :: post ∧
        pt.patient_id = p ∧ pt.reviewed = false ∧ pt ∈ st.patients ∧
        (get_patient_annotation_ids st p).length > 0 ∧
        ∀ q ∈ pre, (get_patient_annotation_ids st q.patient_id).length = 0 := by
  obtain ⟨pre, pt, post, heq, hid, hpos, hpre⟩ :=
    patients_loop_first st _ p h
  have hptmem : pt ∈ st.patients.filter (fun q => q.reviewed == false) := by
    rw [heq]
    exact List.mem_append_right pre (List.mem_cons_self pt post)
  have := List.mem_filter.mp hptmem
  exact ⟨pre, pt, post, heq, hid, by simpa using this.2, this.1, hpos, hpre⟩

/-- C3 [witness]: the amended theorem at the scenario store where the
locked patient has no annotations: P3 is returned. -/
theorem c3_first_unreviewed_pending_witness :
    get_patients_to_annotate storeLockedEmptyFirst = some 3 ∧
      ∃ pre pt post,
        storeLockedEmptyFirst.patients.filter (fun q => q.reviewed == false)
            = pre ++ pt :: post ∧
          pt.patient_id = 3 ∧ pt.reviewed = false ∧
          pt ∈ storeLockedEmptyFirst.patients ∧
          (get_patient_annotation_ids storeLockedEmptyFirst 3).length > 0 ∧
          ∀ q ∈ pre,
            (get_patient_annotation_ids storeLockedEmptyFirst
              q.patient_id).length = 0 :=
  ⟨by decide, c3_first_unreviewed_pending storeLockedEmptyFirst 3 (by decide)⟩

/-- C2 [counterexample]: a store satisfying the at-most-one-event-date
invariant (annotation 1 of patient 7 holds a date, annotation 2 of the same
patient holds none) on which `db.update_annotation_date` applied to
annotation 2 produces two same-patient annotations with non-null
`event_date`: the operation neither clears nor refuses. -/
theorem c2_counterexample :
    at_most_one_event_date storeTwoAnnOneDate ∧
      ¬ at_most_one_event_date (update_annotation_date storeTwoAnnOneDate
        2 9) := by
  decide

/-- C2 [amended]: `db.update_annotation_date` sets `event_date`
unconditionally; it preserves the at-most-one-event-date invariant exactly
when every other annotation of the target's patient holds a null
`event_date` (e.g. when the target is the current anchor, or the patient has
no anchor); no clearing or refusal is performed by the operation itself. -/
theorem c2_update_date_preserves_when_sole (st : Store) (annId d : Nat)
    (hnodup : (st.annotations.map (fun a => a._id)).Nodup)
    (hinv : at_most_one_event_date st)
    (hother : ∀ a ∈ st.annotations, a._id = annId →
      ∀ b ∈ st.annotations, b.patient_id = a.patient_id → b._id ≠ annId →
        b.event_date = none) :
    at_most_one_event_date (update_annotation_date st annId d) := by
  have hmap := update_one_eq_map
    (fun a : AnnotationDoc => a._id == annId)
    (fun a => { a with event_date := some d })
    (filter_key_length_le_one hnodup)
  set F : AnnotationDoc → AnnotationDoc := fun a =>
    if a._id == annId then { a with event_date := some d } else a with hF
  have hFpid : ∀ a, (F a).patient_id = a.patient_id := by
    intro a
    by_cases h : a._id = annId <;> simp [hF, h]
  have hann : (update_annotation_date st annId d).annotations =
      st.annotations.map F := by
    simp only [update_annotation_date, hmap]
  intro pid hpid
  rw [hann, List.map_map] at hpid
  have hpid' : pid ∈ st.annotations.map (fun a => a.patient_id) := by
    have : ((fun a : AnnotationDoc => a.patient_id) ∘ F) =
        fun a => a.patient_id := by
      funext a
      exact hFpid a
    rwa [this] at hpid
  have hcount : event_date_count (update_annotation_date st annId d) pid =
      (st.annotations.countP (fun a =>
        (F a).patient_id == pid && (F a).event_date.isSome)) := by
    simp only [event_date_count, hann, ← List.countP_eq_length_filter,
      List.countP_map]
    rfl
  by_cases hhit : ∃ a ∈ st.annotations, a._id = annId ∧ a.patient_id = pid
  · obtain ⟨a, hamem, haid, hapid⟩ := hhit
    have hq : ∀ x ∈ st.annotations,
        ((F x).patient_id == pid && (F x).event_date.isSome) =
          (x == a) := by
      intro x hx
      by_cases hxid : x._id = annId
      · have hxa : x = a := nodup_key_inj hnodup hx hamem (by rw [hxid, haid])
        subst hxa
        simp [hF, hxid, hapid]
      · have hFx : F x = x := by simp [hF, hxid]
        have hxa : ¬ (x = a) := fun hxe => hxid (hxe ▸ haid)
        rw [hFx]
        have hxaf : (x == a) = false := beq_eq_false_iff_ne.mpr hxa
        by_cases hxpid : x.patient_id = pid
        · have hnone : x.event_date = none :=
            hother a hamem haid x hx (by rw [hxpid, hapid]) hxid
          rw [hnone, hxaf]
          simp
        · have hpidf : (x.patient_id == pid) = false :=
            beq_eq_false_iff_ne.mpr hxpid
          rw [hpidf, hxaf, Bool.false_and]
    rw [hcount, List.countP_congr (fun x hx => by rw [hq x hx])]
    have hca : st.annotations.countP (fun x => x == a) =
        st.annotations.count a := rfl
    rw [hca, List.count_eq_one_of_mem (List.Nodup.of_map _ hnodup) hamem]
  · push_neg at hhit
    have hq : ∀ x ∈ st.annotations,
        ((F x).patient_id == pid && (F x).event_date.isSome) =
          (x.patient_id == pid && x.event_date.isSome) := by
      intro x hx
      by_cases hxid : x._id = annId
      · have : x.patient_id ≠ pid := hhit x hx hxid
        simp [hF, hxid, this]
      · simp [hF, hxid]
    rw [hcount, List.countP_congr (fun x hx => by rw [hq x hx])]
    have := hinv pid hpid'
    rwa [event_date_count, ← List.countP_eq_length_filter] at this

theorem scanLoop_reach_current (arr : List Nat) (cur : Nat)
    (hcur : cur < arr.length) :
    ∀ d i fuel, i + d = cur → d + 1 ≤ fuel →
      (scanLoop arr cur i fuel).isSome := by
  intro d
  induction d with
  | zero =>
    intro i fuel hi hfuel
    obtain ⟨f, rfl⟩ : ∃ f, fuel = f + 1 := ⟨fuel - 1, by omega⟩
    have hieq : i = cur := by omega
    subst hieq
    simp [scanLoop]
  | succ d ih =>
    intro i fuel hi hfuel
    obtain ⟨f, rfl⟩ : ∃ f, fuel = f + 1 := ⟨fuel - 1, by omega⟩
    have hne : i ≠ cur := by omega
    have hlen : i ≠ arr.length := by omega
    simp only [scanLoop, if_neg hne, if_neg hlen]
    by_cases h1 : arr.getD i 0 = 1
    · rw [if_pos h1]
      rfl
    · rw [if_neg h1]
      exact ih (i + 1) f (by omega) (by omega)

theorem scanLoop_above_current (arr : List Nat) (cur : Nat)
    (hcur : cur < arr.length) (hcur1 : 1 ≤ cur) :
    ∀ d i fuel, i + d = arr.length → cur < i → d + cur + 2 ≤ fuel →
      (scanLoop arr cur i fuel).isSome := by
  intro d
  induction d with
  | zero =>
    intro i fuel hi hgt hfuel
    obtain ⟨f, rfl⟩ : ∃ f, fuel = f + 1 := ⟨fuel - 1, by omega⟩
    have hne : i ≠ cur := by omega
    have hlen : i = arr.length := by omega
    simp only [scanLoop, if_neg hne, if_pos hlen]
    by_cases h1 : arr.getD 0 0 = 1
    · rw [if_pos h1]
      rfl
    · rw [if_neg h1]
      exact scanLoop_reach_current arr cur hcur (cur - 1) 1 f (by omega)
        (by omega)
  | succ d ih =>
    intro i fuel hi hgt hfuel
    obtain ⟨f, rfl⟩ : ∃ f, fuel = f + 1 := ⟨fuel - 1, by omega⟩
    have hne : i ≠ cur := by omega
    have hlen : i ≠ arr.length := by omega
    simp only [scanLoop, if_neg hne, if_neg hlen]
    by_cases h1 : arr.getD i 0 = 1
    · rw [if_pos h1]
      rfl
    · rw [if_neg h1]
      exact ih (i + 1) f (by omega) (by omega) (by omega)

theorem scanLoop_wrap_zero (arr : List Nat) :
    ∀ d i fuel, i + d = arr.length → 1 ≤ i →
      ((∃ k, i ≤ k ∧ k < arr.length ∧ arr.getD k 0 = 1) ∨
        arr.getD 0 0 = 1) →
      d + 2 ≤ fuel → (scanLoop arr 0 i fuel).isSome := by
  intro d
  induction d with
  | zero =>
    intro i fuel hi hi1 hhit hfuel
    obtain ⟨f, rfl⟩ : ∃ f, fuel = f + 1 := ⟨fuel - 1, by omega⟩
    have hne : i ≠ 0 := by omega
    have hlen : i = arr.length := by omega
    have h1 : arr.getD 0 0 = 1 := by
      rcases hhit with ⟨k, hk1, hk2, _⟩ | h
      · omega
      · exact h
    simp only [scanLoop, if_neg hne, if_pos hlen]
    rw [if_pos h1]
    rfl
  | succ d ih =>
    intro i fuel hi hi1 hhit hfuel
    obtain ⟨f, rfl⟩ : ∃ f, fuel = f + 1 := ⟨fuel - 1, by omega⟩
    have hne : i ≠ 0 := by omega
    have hlen : i ≠ arr.length := by omega
    simp only [scanLoop, if_neg hne, if_neg hlen]
    by_cases h1 : arr.getD i 0 = 1
    · rw [if_pos h1]
      rfl
    · rw [if_neg h1]
      apply ih (i + 1) f (by omega) (by omega) ?_ (by omega)
      rcases hhit with ⟨k, hk1, hk2, hk3⟩ | h
      · refine Or.inl ⟨k, ?_, hk2, hk3⟩
        rcases Nat.lt_or_ge i k with hik | hik
        · omega
        · exfalso
          have : k = i := by omega
          exact h1 (this ▸ hk3)
      · exact Or.inr h

/-- Termination of the circular scan whenever `current_index ≥ 1`, or some
entry equals 1: `arr.length + 2` loop passes always suffice. -/
theorem get_next_annotation_index_total (arr : List Nat) (cur : Nat)
    (hcur : cur < arr.length)
    (h : 1 ≤ cur ∨ ∃ k, k < arr.length ∧ arr.getD k 0 = 1)
    (fuel : Nat) (hfuel : arr.length + 2 ≤ fuel) :
    (get_next_annotation_index arr cur fuel).isSome := by
  rcases h with hcur1 | ⟨k, hk, hk1⟩
  · exact scanLoop_above_current arr cur hcur hcur1
      (arr.length - cur - 1) (cur + 1) fuel (by omega) (by omega) (by omega)
  · by_cases hcur0 : 1 ≤ cur
    · exact scanLoop_above_current arr cur hcur hcur0
        (arr.length - cur - 1) (cur + 1) fuel (by omega) (by omega)
        (by omega)
    · have hc : cur = 0 := by omega
      subst hc
      apply scanLoop_wrap_zero arr (arr.length - 1) 1 fuel (by omega)
        (by omega) ?_ (by omega)
      by_cases hk0 : k = 0
      · exact Or.inr (hk0 ▸ hk1)
      · exact Or.inl ⟨k, by omega, hk, hk1⟩

/-- C8 [confirmed]: when the pending bit at the cursor is already 0, the
`adjudicate` transition (`ops._adjudicate_annotation` with
`updated_date = False`) completes and leaves the pending bit-vector
`session["unreviewed_annotations_index"]` unchanged — no entry is written. -/
theorem c8_adjudicate_reviewed_noop (skip_after_event : Bool)
    (username : String) (fuel : Nat) (st : Store) (s : Session) (pid : Nat)
    (hpid : s.patient_id = some pid)
    (hix : 0 ≤ s.index)
    (hixlen : s.index.toNat < s.unreviewed_annotations_index.length)
    (hbit : s.unreviewed_annotations_index.getD s.index.toNat 0 = 0)
    (hfuel : s.unreviewed_annotations_index.length + 2 ≤ fuel)
    (hann : (get_annotation_by_id st
      (s.annotations.getD s.index.toNat 0)).isSome) :
    ∃ st' s',
      adjudicate_annotation_step skip_after_event username false fuel st s =
          some (st', s') ∧
        s'.unreviewed_annotations_index = s.unreviewed_annotations_index := by
  have hbitF : (s.unreviewed_annotations_index.getD s.index.toNat 0 == 1) =
      false := by rw [hbit]; rfl
  simp only [adjudicate_annotation_step, hpid, Bool.false_and,
    Bool.and_self, if_neg (Bool.false_ne_true), hbitF, Bool.false_eq_true,
    if_false]
  by_cases hcont : s.unreviewed_annotations_index.contains 1
  · rw [if_pos hcont]
    by_cases hev : (get_event_date st pid).isSome
    · rw [if_pos hev]
      obtain ⟨ann, hanneq⟩ := Option.isSome_iff_exists.mp hann
      rw [hanneq]
      exact ⟨_, s, rfl, rfl⟩
    · rw [if_neg hev]
      have hk : ∃ k, k < s.unreviewed_annotations_index.length ∧
          s.unreviewed_annotations_index.getD k 0 = 1 := by
        have hmem : (1 : Nat) ∈ s.unreviewed_annotations_index := by
          simpa using hcont
        obtain ⟨k, hk, hkeq⟩ := List.mem_iff_getElem.mp hmem
        exact ⟨k, hk, by rw [List.getD_eq_getElem _ 0 hk, hkeq]⟩
      have := get_next_annotation_index_total
        s.unreviewed_annotations_index s.index.toNat hixlen (Or.inr hk)
        fuel hfuel
      obtain ⟨j, hj⟩ := Option.isSome_iff_exists.mp this
      rw [hj]
      exact ⟨st, _, rfl, rfl⟩
  · rw [if_neg hcont]
    by_cases hlast : decide (s.index ≥ (s.total_count : Int) - 1) = true
    · rw [if_pos (by rw [hlast]; rfl)]
      exact ⟨_, s, rfl, rfl⟩
    · rw [if_neg (by rw [Bool.or_eq_true]; push_neg; exact ⟨by simpa using hlast, by simp⟩)]
      exact ⟨st, _, rfl, rfl⟩

/-- C8 [witness]: the theorem at a concrete state: cursor on a bit-0 entry
with another pending entry; the transition returns and the bit-vector is
untouched. -/
theorem c8_adjudicate_reviewed_noop_witness :
    ∃ st' s',
      adjudicate_annotation_step false "user" false 4 storeTwoPending
          sessionBitZero = some (st', s') ∧
        s'.unreviewed_annotations_index =
          sessionBitZero.unreviewed_annotations_index :=
  c8_adjudicate_reviewed_noop false "user" 4 storeTwoPending sessionBitZero
    1 (by decide) (by decide) (by decide) (by decide) (by decide) (by decide)

theorem noteAt_cons_zero (a : AnnotationDoc) (l : List AnnotationDoc) :
    noteAt (a :: l) 0 = a.note_id := rfl

theorem noteAt_cons_succ (a : AnnotationDoc) (l : List AnnotationDoc)
    (k : Nat) : noteAt (a :: l) (k + 1) = noteAt l k := rfl

theorem startAt_cons_zero (a : AnnotationDoc) (l : List AnnotationDoc) :
    startAt (a :: l) 0 = a.sentence_start := rfl

theorem startAt_cons_succ (a : AnnotationDoc) (l : List AnnotationDoc)
    (k : Nat) : startAt (a :: l) (k + 1) = startAt l k := rfl

theorem normAt_cons_zero (a : AnnotationDoc) (l : List AnnotationDoc) :
    normAt (a :: l) 0 = normSentence a.sentence := rfl

theorem normAt_cons_succ (a : AnnotationDoc) (l : List AnnotationDoc)
    (k : Nat) : normAt (a :: l) (k + 1) = normAt l k := rfl

theorem mem_dup_hide_go :
    ∀ (l : List AnnotationDoc) (i0 : Nat) (seen : List String) (n : Nat),
      n ∈ dup_hide_go l i0 seen ↔
        ∃ k, k < l.length ∧ n = i0 + k ∧
          (normAt l k ∈ seen ∨ ∃ j, j < k ∧ normAt l j = normAt l k) := by
  intro l
  induction l with
  | nil =>
    intro i0 seen n
    simp [dup_hide_go]
  | cons a rest ih =>
    intro i0 seen n
    simp only [dup_hide_go]
    by_cases hseen : normSentence a.sentence ∈ seen
    · rw [if_pos hseen]
      simp only [List.mem_cons]
      constructor
      · rintro (rfl | hrec)
        · exact ⟨0, by simp, by omega,
            Or.inl (by rw [normAt_cons_zero]; exact hseen)⟩
        · obtain ⟨k, hk, hn, hcond⟩ := (ih (i0 + 1) seen n).mp hrec
          refine ⟨k + 1, by simpa using Nat.succ_lt_succ hk, by omega, ?_⟩
          rcases hcond with hin | ⟨j, hj, heq⟩
          · exact Or.inl (by rwa [normAt_cons_succ])
          · exact Or.inr ⟨j + 1, by omega,
              by rwa [normAt_cons_succ, normAt_cons_succ]⟩
      · rintro ⟨k, hk, hn, hcond⟩
        cases k with
        | zero => exact Or.inl (by omega)
        | succ k =>
          refine Or.inr ((ih (i0 + 1) seen n).mpr
            ⟨k, by simpa using Nat.lt_of_succ_lt_succ hk, by omega, ?_⟩)
          rcases hcond with hin | ⟨j, hj, heq⟩
          · exact Or.inl (by rwa [normAt_cons_succ] at hin)
          · cases j with
            | zero =>
              refine Or.inl ?_
              rw [normAt_cons_zero] at heq
              rw [normAt_cons_succ] at heq
              rw [← heq]
              exact hseen
            | succ j =>
              exact Or.inr ⟨j, by omega,
                by rwa [normAt_cons_succ, normAt_cons_succ] at heq⟩
    · rw [if_neg hseen]
      constructor
      · intro hrec
        obtain ⟨k, hk, hn, hcond⟩ :=
          (ih (i0 + 1) (normSentence a.sentence :: seen) n).mp hrec
        refine ⟨k + 1, by simpa using Nat.succ_lt_succ hk, by omega, ?_⟩
        rcases hcond with hin | ⟨j, hj, heq⟩
        · rcases List.mem_cons.mp hin with heqa | hin'
          · exact Or.inr ⟨0, by omega,
              by rw [normAt_cons_zero, normAt_cons_succ, heqa]⟩
          · exact Or.inl (by rwa [normAt_cons_succ])
        · exact Or.inr ⟨j + 1, by omega,
            by rwa [normAt_cons_succ, normAt_cons_succ]⟩
      · rintro ⟨k, hk, hn, hcond⟩
        cases k with
        | zero =>
          exfalso
          rcases hcond with hin | ⟨j, hj, _⟩
          · exact hseen (by rwa [normAt_cons_zero] at hin)
          · omega
        | succ k =>
          apply (ih (i0 + 1) (normSentence a.sentence :: seen) n).mpr
          refine ⟨k, by simpa using Nat.lt_of_succ_lt_succ hk, by omega, ?_⟩
          rcases hcond with hin | ⟨j, hj, heq⟩
          · exact Or.inl (List.mem_cons_of_mem _
              (by rwa [normAt_cons_succ] at hin))
          · cases j with
            | zero =>
              refine Or.inl (List.mem_cons.mpr (Or.inl ?_))
              rw [normAt_cons_zero, normAt_cons_succ] at heq
              rw [← heq]
            | succ j =>
              exact Or.inr ⟨j, by omega,
                by rwa [normAt_cons_succ, normAt_cons_succ] at heq⟩

theorem mem_dup_show_go :
    ∀ (l : List AnnotationDoc) (i0 : Nat) (prev : Option Nat)
      (seen : List Nat) (n : Nat),
      n ∈ dup_show_go l i0 prev seen ↔
        ∃ k, k < l.length ∧ n = i0 + k ∧
          (((∀ m, m ≤ k → noteAt l m = noteAt l k) ∧
              prev = some (noteAt l k) ∧ startAt l k ∈ seen) ∨
            ∃ j, j < k ∧ startAt l j = startAt l k ∧
              ∀ m, j ≤ m → m ≤ k → noteAt l m = noteAt l k) := by
  intro l
  induction l with
  | nil =>
    intro i0 prev seen n
    simp [dup_show_go]
  | cons a rest ih =>
    intro i0 prev seen n
    simp only [dup_show_go]
    by_cases hprev : prev = some a.note_id
    · rw [if_pos hprev]
      by_cases hs : a.sentence_start ∈ seen
      · rw [if_pos hs]
        simp only [List.mem_cons]
        constructor
        · rintro (rfl | hrec)
          · refine ⟨0, by simp, by omega, Or.inl ⟨?_, ?_, ?_⟩⟩
            · intro m hm
              have hm0 : m = 0 := by omega
              rw [hm0]
            · rwa [noteAt_cons_zero]
            · rwa [startAt_cons_zero]
          · obtain ⟨k, hk, hn, hcond⟩ :=
              (ih (i0 + 1) (some a.note_id) seen n).mp hrec
            refine ⟨k + 1, by simpa using Nat.succ_lt_succ hk, by omega, ?_⟩
            rcases hcond with ⟨hrun, hpv, hseenk⟩ | ⟨j, hj, hst, hrun⟩
            · have hank : a.note_id = noteAt rest k := Option.some.inj hpv
              refine Or.inl ⟨?_, ?_, ?_⟩
              · intro m hm
                cases m with
                | zero => rw [noteAt_cons_zero, noteAt_cons_succ]; exact hank
                | succ m =>
                  rw [noteAt_cons_succ, noteAt_cons_succ]
                  exact hrun m (by omega)
              · rw [noteAt_cons_succ, hprev, hank]
              · rwa [startAt_cons_succ]
            · refine Or.inr ⟨j + 1, by omega,
                by rwa [startAt_cons_succ, startAt_cons_succ], ?_⟩
              intro m hm1 hm2
              cases m with
              | zero => omega
              | succ m =>
                rw [noteAt_cons_succ, noteAt_cons_succ]
                exact hrun m (by omega) (by omega)
        · rintro ⟨k, hk, hn, hcond⟩
          cases k with
          | zero => exact Or.inl (by omega)
          | succ k =>
            refine Or.inr ((ih (i0 + 1) (some a.note_id) seen n).mpr
              ⟨k, by simpa using Nat.lt_of_succ_lt_succ hk, by omega, ?_⟩)
            rcases hcond with ⟨hrun, hpv, hseenk⟩ | ⟨j, hj, hst, hrun⟩
            · refine Or.inl ⟨?_, ?_, ?_⟩
              · intro m hm
                have := hrun (m + 1) (by omega)
                rwa [noteAt_cons_succ, noteAt_cons_succ] at this
              · congr 1
                have := hrun 0 (by omega)
                rw [noteAt_cons_zero, noteAt_cons_succ] at this
                exact this
              · rwa [startAt_cons_succ] at hseenk
            · cases j with
              | zero =>
                rw [startAt_cons_zero, startAt_cons_succ] at hst
                refine Or.inl ⟨?_, ?_, ?_⟩
                · intro m hm
                  have := hrun (m + 1) (by omega) (by omega)
                  rwa [noteAt_cons_succ, noteAt_cons_succ] at this
                · congr 1
                  have := hrun 0 (by omega) (by omega)
                  rw [noteAt_cons_zero, noteAt_cons_succ] at this
                  exact this
                · rw [← hst]
                  exact hs
              | succ j =>
                refine Or.inr ⟨j, by omega,
                  by rwa [startAt_cons_succ, startAt_cons_succ] at hst, ?_⟩
                intro m hm1 hm2
                have := hrun (m + 1) (by omega) (by omega)
                rwa [noteAt_cons_succ, noteAt_cons_succ] at this
      · rw [if_neg hs]
        constructor
        · intro hrec
          obtain ⟨k, hk, hn, hcond⟩ :=
            (ih (i0 + 1) (some a.note_id)
              (a.sentence_start :: seen) n).mp hrec
          refine ⟨k + 1, by simpa using Nat.succ_lt_succ hk, by omega, ?_⟩
          rcases hcond with ⟨hrun, hpv, hseenk⟩ | ⟨j, hj, hst, hrun⟩
          · have hank : a.note_id = noteAt rest k := Option.some.inj hpv
            rcases List.mem_cons.mp hseenk with heq | hseenk'
            · refine Or.inr ⟨0, by omega, ?_, ?_⟩
              · rw [startAt_cons_zero, startAt_cons_succ, heq]
              · intro m hm0 hm
                cases m with
                | zero =>
                  rw [noteAt_cons_zero, noteAt_cons_succ]
                  exact hank
                | succ m =>
                  rw [noteAt_cons_succ, noteAt_cons_succ]
                  exact hrun m (by omega)
            · refine Or.inl ⟨?_, ?_, ?_⟩
              · intro m hm
                cases m with
                | zero => rw [noteAt_cons_zero, noteAt_cons_succ]; exact hank
                | succ m =>
                  rw [noteAt_cons_succ, noteAt_cons_succ]
                  exact hrun m (by omega)
              · rw [noteAt_cons_succ, hprev, hank]
              · rwa [startAt_cons_succ]
          · refine Or.inr ⟨j + 1, by omega,
              by rwa [startAt_cons_succ, startAt_cons_succ], ?_⟩
            intro m hm1 hm2
            cases m with
            | zero => omega
            | succ m =>
              rw [noteAt_cons_succ, noteAt_cons_succ]
              exact hrun m (by omega) (by omega)
        · rintro ⟨k, hk, hn, hcond⟩
          cases k with
          | zero =>
            exfalso
            rcases hcond with ⟨_, _, hseenk⟩ | ⟨j, hj, _, _⟩
            · exact hs (by rwa [startAt_cons_zero] at hseenk)
            · omega
          | succ k =>
            apply (ih (i0 + 1) (some a.note_id)
              (a.sentence_start :: seen) n).mpr
            refine ⟨k, by simpa using Nat.lt_of_succ_lt_succ hk,
              by omega, ?_⟩
            rcases hcond with ⟨hrun, hpv, hseenk⟩ | ⟨j, hj, hst, hrun⟩
            · refine Or.inl ⟨?_, ?_, ?_⟩
              · intro m hm
                have := hrun (m + 1) (by omega)
                rwa [noteAt_cons_succ, noteAt_cons_succ] at this
              · congr 1
                have := hrun 0 (by omega)
                rw [noteAt_cons_zero, noteAt_cons_succ] at this
                exact this
              · refine List.mem_cons_of_mem _ ?_
                rwa [startAt_cons_succ] at hseenk
            · cases j with
              | zero =>
                rw [startAt_cons_zero, startAt_cons_succ] at hst
                refine Or.inl ⟨?_, ?_, ?_⟩
                · intro m hm
                  have := hrun (m + 1) (by omega) (by omega)
                  rwa [noteAt_cons_succ, noteAt_cons_succ] at this
                · congr 1
                  have := hrun 0 (by omega) (by omega)
                  rw [noteAt_cons_zero, noteAt_cons_succ] at this
                  exact this
                · exact List.mem_cons.mpr (Or.inl hst.symm)
              | succ j =>
                refine Or.inr ⟨j, by omega,
                  by rwa [startAt_cons_succ, startAt_cons_succ] at hst, ?_⟩
                intro m hm1 hm2
                have := hrun (m + 1) (by omega) (by omega)
                rwa [noteAt_cons_succ, noteAt_cons_succ] at this
    · rw [if_neg hprev]
      rw [if_neg (List.not_mem_nil a.sentence_start)]
      constructor
      · intro hrec
        obtain ⟨k, hk, hn, hcond⟩ :=
          (ih (i0 + 1) (some a.note_id) [a.sentence_start] n).mp hrec
        refine ⟨k + 1, by simpa using Nat.succ_lt_succ hk, by omega, ?_⟩
        rcases hcond with ⟨hrun, hpv, hseenk⟩ | ⟨j, hj, hst, hrun⟩
        · have hank : a.note_id = noteAt rest k := Option.some.inj hpv
          have heq : startAt rest k = a.sentence_start := by
            simpa using hseenk
          refine Or.inr ⟨0, by omega, ?_, ?_⟩
          · rw [startAt_cons_zero, startAt_cons_succ, heq]
          · intro m hm0 hm
            cases m with
            | zero => rw [noteAt_cons_zero, noteAt_cons_succ]; exact hank
            | succ m =>
              rw [noteAt_cons_succ, noteAt_cons_succ]
              exact hrun m (by omega)
        · refine Or.inr ⟨j + 1, by omega,
            by rwa [startAt_cons_succ, startAt_cons_succ], ?_⟩
          intro m hm1 hm2
          cases m with
          | zero => omega
          | succ m =>
            rw [noteAt_cons_succ, noteAt_cons_succ]
            exact hrun m (by omega) (by omega)
      · rintro ⟨k, hk, hn, hcond⟩
        cases k with
        | zero =>
          exfalso
          rcases hcond with ⟨_, hpv, _⟩ | ⟨j, hj, _, _⟩
          · exact hprev (by rwa [noteAt_cons_zero] at hpv)
          · omega
        | succ k =>
          apply (ih (i0 + 1) (some a.note_id) [a.sentence_start] n).mpr
          refine ⟨k, by simpa using Nat.lt_of_succ_lt_succ hk, by omega, ?_⟩
          rcases hcond with ⟨hrun, hpv, hseenk⟩ | ⟨j, hj, hst, hrun⟩
          · exfalso
            have h0 := hrun 0 (by omega)
            rw [noteAt_cons_zero] at h0
            exact hprev (by rw [hpv, ← h0])
          · cases j with
            | zero =>
              rw [startAt_cons_zero, startAt_cons_succ] at hst
              refine Or.inl ⟨?_, ?_, ?_⟩
              · intro m hm
                have := hrun (m + 1) (by omega) (by omega)
                rwa [noteAt_cons_succ, noteAt_cons_succ] at this
              · congr 1
                have := hrun 0 (by omega) (by omega)
                rw [noteAt_cons_zero, noteAt_cons_succ] at this
                exact this
              · simp [hst.symm]
            | succ j =>
              refine Or.inr ⟨j, by omega,
                by rwa [startAt_cons_succ, startAt_cons_succ] at hst, ?_⟩
              intro m hm1 hm2
              have := hrun (m + 1) (by omega) (by omega)
              rwa [noteAt_cons_succ, noteAt_cons_succ] at this

/-- C6 [confirmed]: duplicate suppression is mode-asymmetric.  With
`hide_duplicates = True`, position `n` is suppressed iff some earlier
position anywhere in the patient's candidate list carries the same
lower-cased, stripped sentence.  With `hide_duplicates = False`, position
`n` is suppressed iff some earlier position carries the same
`sentence_start` offset and all positions in between (inclusive) carry the
same `note_id` — i.e. the seen-set of offsets is cleared whenever the note
id changes, so duplicates are suppressed only within the same note. -/
theorem c6_duplicate_modes (anns : List AnnotationDoc) (n : Nat) :
    (n ∈ indices_to_remove anns true ↔
      n < anns.length ∧ ∃ j, j < n ∧ normAt anns j = normAt anns n) ∧
    (n ∈ indices_to_remove anns false ↔
      n < anns.length ∧ ∃ j, j < n ∧ startAt anns j = startAt anns n ∧
        ∀ m, j ≤ m → m ≤ n → noteAt anns m = noteAt anns n) := by
  constructor
  · rw [indices_to_remove, if_pos rfl, mem_dup_hide_go]
    constructor
    · rintro ⟨k, hk, hn, hcond⟩
      have hkn : k = n := by omega
      subst hkn
      rcases hcond with hin | hj
      · exact absurd hin (List.not_mem_nil _)
      · exact ⟨hk, hj⟩
    · rintro ⟨hn, j, hj, heq⟩
      exact ⟨n, hn, by omega, Or.inr ⟨j, hj, heq⟩⟩
  · rw [indices_to_remove, if_neg (by simp), mem_dup_show_go]
    constructor
    · rintro ⟨k, hk, hn, hcond⟩
      have hkn : k = n := by omega
      subst hkn
      rcases hcond with ⟨_, hpv, _⟩ | hj
      · exact absurd hpv (by simp)
      · exact ⟨hk, hj⟩
    · rintro ⟨hn, j, hj, hst, hrun⟩
      exact ⟨n, hn, by omega, Or.inr ⟨j, hj, hst, hrun⟩⟩

theorem dup_hide_go_sorted :
    ∀ (l : List AnnotationDoc) (i0 : Nat) (seen : List String),
      (dup_hide_go l i0 seen).Pairwise (· < ·) := by
  intro l
  induction l with
  | nil => intro i0 seen; simp [dup_hide_go]
  | cons a rest ih =>
    intro i0 seen
    simp only [dup_hide_go]
    by_cases hseen : normSentence a.sentence ∈ seen
    · rw [if_pos hseen]
      refine List.Pairwise.cons ?_ (ih (i0 + 1) seen)
      intro n hn
      obtain ⟨k, _, hk, _⟩ := (mem_dup_hide_go rest (i0 + 1) seen n).mp hn
      omega
    · rw [if_neg hseen]
      exact ih (i0 + 1) (normSentence a.sentence :: seen)

theorem dup_show_go_sorted :
    ∀ (l : List AnnotationDoc) (i0 : Nat) (prev : Option Nat)
      (seen : List Nat), (dup_show_go l i0 prev seen).Pairwise (· < ·) := by
  intro l
  induction l with
  | nil => intro i0 prev seen; simp [dup_show_go]
  | cons a rest ih =>
    intro i0 prev seen
    simp only [dup_show_go]
    by_cases hprev : prev = some a.note_id
    · rw [if_pos hprev]
      by_cases hs : a.sentence_start ∈ seen
      · rw [if_pos hs]
        refine List.Pairwise.cons ?_ (ih (i0 + 1) (some a.note_id) seen)
        intro n hn
        obtain ⟨k, _, hk, _⟩ :=
          (mem_dup_show_go rest (i0 + 1) (some a.note_id) seen n).mp hn
        omega
      · rw [if_neg hs]
        exact ih (i0 + 1) (some a.note_id) (a.sentence_start :: seen)
    · rw [if_neg hprev, if_neg (List.not_mem_nil a.sentence_start)]
      exact ih (i0 + 1) (some a.note_id) [a.sentence_start]

theorem indices_to_remove_sorted (anns : List AnnotationDoc) (hide : Bool) :
    (indices_to_remove anns hide).Pairwise (· < ·) := by
  cases hide
  · rw [indices_to_remove, if_neg (by simp)]
    exact dup_show_go_sorted anns 0 none []
  · rw [indices_to_remove, if_pos rfl]
    exact dup_hide_go_sorted anns 0 []

theorem indices_to_remove_lt_length (anns : List AnnotationDoc)
    (hide : Bool) {n : Nat} (h : n ∈ indices_to_remove anns hide) :
    n < anns.length := by
  cases hide
  · rw [indices_to_remove, if_neg (by simp)] at h
    obtain ⟨k, hk, hn, _⟩ := (mem_dup_show_go anns 0 none [] n).mp h
    omega
  · rw [indices_to_remove, if_pos rfl] at h
    obtain ⟨k, hk, hn, _⟩ := (mem_dup_hide_go anns 0 [] n).mp h
    omega

theorem keep_go_nil_ds : ∀ (l : List α) (i : Nat), keep_go [] l i = l := by
  intro l
  induction l with
  | nil => intro i; rfl
  | cons x xs ih =>
    intro i
    simp only [keep_go, List.not_mem_nil, if_false]
    rw [ih]

theorem keep_go_irrelevant (d : Nat) (ds : List Nat) :
    ∀ (l : List α) (j : Nat), d < j → keep_go (d :: ds) l j = keep_go ds l j := by
  intro l
  induction l with
  | nil => intro j _; rfl
  | cons x xs ih =>
    intro j hj
    simp only [keep_go]
    by_cases hjm : j ∈ ds
    · rw [if_pos (List.mem_cons_of_mem _ hjm), if_pos hjm,
        ih (j + 1) (by omega)]
    · have hnot : j ∉ d :: ds := by
        simp only [List.mem_cons]
        push_neg
        exact ⟨by omega, hjm⟩
      rw [if_neg hnot, if_neg hjm, ih (j + 1) (by omega)]

theorem keep_go_eraseIdx (d : Nat) (ds : List Nat)
    (hds : ∀ e ∈ ds, d < e) :
    ∀ (l : List α) (i0 : Nat), i0 ≤ d →
      (keep_go ds l i0).eraseIdx (d - i0) = keep_go (d :: ds) l i0 := by
  intro l
  induction l with
  | nil => intro i0 _; rfl
  | cons x xs ih =>
    intro i0 hi0
    have hi0ds : i0 ∉ ds := by
      intro h
      have := hds i0 h
      omega
    simp only [keep_go, if_neg hi0ds]
    by_cases hd0 : d = i0
    · subst hd0
      have hdds : (d ∈ d :: ds) := List.mem_cons_self d ds
      rw [if_pos hdds]
      simp only [Nat.sub_self, List.eraseIdx_cons_zero]
      exact (keep_go_irrelevant d ds xs (d + 1) (by omega)).symm
    · have hdcons : i0 ∉ d :: ds := by
        simp only [List.mem_cons]
        push_neg
        exact ⟨by omega, hi0ds⟩
      rw [if_neg hdcons]
      have hsub : d - i0 = (d - (i0 + 1)) + 1 := by omega
      rw [hsub, List.eraseIdx_cons_succ, ih (i0 + 1) (by omega)]

theorem erase_indices_eq_keep_go :
    ∀ (ds : List Nat), ds.Pairwise (· < ·) →
      ∀ (l : List α), erase_indices l ds = keep_go ds l 0 := by
  intro ds
  induction ds with
  | nil =>
    intro _ l
    rw [erase_indices, keep_go_nil_ds]
  | cons d ds ih =>
    intro h l
    rw [List.pairwise_cons] at h
    have := keep_go_eraseIdx d ds h.1 l 0 (by omega)
    rw [erase_indices, ih h.2 l, ← this]
    simp

theorem mem_keep_go {ds : List Nat} [Inhabited α] {x : α} :
    ∀ (l : List α) (i0 : Nat),
      x ∈ keep_go ds l i0 ↔
        ∃ k, k < l.length ∧ (i0 + k) ∉ ds ∧ l.getD k default = x := by
  intro l
  induction l with
  | nil => intro i0; simp [keep_go]
  | cons y ys ih =>
    intro i0
    simp only [keep_go]
    by_cases hi0 : i0 ∈ ds
    · rw [if_pos hi0, ih (i0 + 1)]
      constructor
      · rintro ⟨k, hk, hnot, hval⟩
        refine ⟨k + 1, by simpa using Nat.succ_lt_succ hk, ?_, hval⟩
        have heq : i0 + (k + 1) = i0 + 1 + k := by omega
        rw [heq]
        exact hnot
      · rintro ⟨k, hk, hnot, hval⟩
        cases k with
        | zero => exact absurd hi0 (by simpa using hnot)
        | succ k =>
          exact ⟨k, by simpa using Nat.lt_of_succ_lt_succ hk,
            by have : i0 + 1 + k = i0 + (k + 1) := by omega
               rw [this]; exact hnot,
            hval⟩
    · rw [if_neg hi0]
      simp only [List.mem_cons]
      rw [ih (i0 + 1)]
      constructor
      · rintro (rfl | ⟨k, hk, hnot, hval⟩)
        · exact ⟨0, by simp, by simpa using hi0, rfl⟩
        · exact ⟨k + 1, by simpa using Nat.succ_lt_succ hk,
            by have : i0 + (k + 1) = i0 + 1 + k := by omega
               rw [this]; exact hnot,
            hval⟩
      · rintro ⟨k, hk, hnot, hval⟩
        cases k with
        | zero => exact Or.inl hval.symm
        | succ k =>
          refine Or.inr ⟨k, by simpa using Nat.lt_of_succ_lt_succ hk,
            ?_, hval⟩
          have : i0 + 1 + k = i0 + (k + 1) := by omega
          rw [this]
          exact hnot

theorem getD_eraseIdx_lt {dflt : α} :
    ∀ (l : List α) (d e : Nat), d < e →
      (l.eraseIdx e).getD d dflt = l.getD d dflt := by
  intro l
  induction l with
  | nil => intro d e _; simp
  | cons x xs ih =>
    intro d e hde
    cases e with
    | zero => omega
    | succ e =>
      rw [List.eraseIdx_cons_succ]
      cases d with
      | zero => rfl
      | succ d =>
        rw [List.getD_cons_succ, List.getD_cons_succ]
        exact ih d e (by omega)

theorem getD_erase_indices {dflt : α} {d : Nat} :
    ∀ (ds : List Nat), (∀ e ∈ ds, d < e) →
      ∀ (l : List α), (erase_indices l ds).getD d dflt = l.getD d dflt := by
  intro ds
  induction ds with
  | nil => intro _ l; rfl
  | cons e ds ih =>
    intro h l
    rw [erase_indices, getD_eraseIdx_lt _ d e (h e (by simp)),
      ih (fun e' he' => h e' (by simp [he'])) l]

theorem format_fold (st : Store) (anns : List AnnotationDoc) :
    ∀ (ds : List Nat), ds.Pairwise (· < ·) →
      ds.foldr (fun d acc =>
        (mark_annotation_reviewed acc.1 ((acc.2.getD d default)._id),
          acc.2.eraseIdx d)) (st, anns) =
      (ds.foldr (fun d st' =>
          mark_annotation_reviewed st' ((anns.getD d default)._id)) st,
        erase_indices anns ds) := by
  intro ds
  induction ds with
  | nil => intro _; rfl
  | cons d ds ih =>
    intro h
    rw [List.pairwise_cons] at h
    simp only [List.foldr_cons]
    rw [ih h.2, getD_erase_indices ds h.1 anns]
    rfl

theorem format_annotations_eq (st : Store) (anns : List AnnotationDoc)
    (hide : Bool) :
    (format_annotations st anns hide).1 =
        (indices_to_remove anns hide).foldr (fun d st' =>
          mark_annotation_reviewed st' ((anns.getD d default)._id)) st ∧
      (format_annotations st anns hide).2.annotations =
        (keep_go (indices_to_remove anns hide) anns 0).map
          (fun a => a._id) := by
  have hsorted := indices_to_remove_sorted anns hide
  have hfold := format_fold st anns (indices_to_remove anns hide) hsorted
  have hfoldl : (indices_to_remove anns hide).reverse.foldl
      (fun acc idx =>
        (mark_annotation_reviewed acc.1 ((acc.2.getD idx default)._id),
          acc.2.eraseIdx idx)) (st, anns) =
      ((indices_to_remove anns hide).foldr (fun d st' =>
          mark_annotation_reviewed st' ((anns.getD d default)._id)) st,
        erase_indices anns (indices_to_remove anns hide)) := by
    rw [List.foldl_reverse]
    exact hfold
  have hkeep := erase_indices_eq_keep_go (indices_to_remove anns hide)
    hsorted anns
  constructor
  · simp only [format_annotations, hfoldl]
  · simp only [format_annotations, hfoldl]
    by_cases hlen : (erase_indices anns (indices_to_remove anns hide)).length
        > 0
    · rw [if_pos hlen, hkeep]
    · rw [if_neg hlen]
      have : erase_indices anns (indices_to_remove anns hide) = [] := by
        have := Nat.eq_zero_of_not_pos hlen
        exact List.length_eq_zero.mp this
      rw [← hkeep, this]
      rfl

theorem update_one_map_key (k : α → β) (p : α → Bool) (f : α → α)
    (hf : ∀ x, k (f x) = k x) :
    ∀ l : List α, (update_one p f l).map k = l.map k := by
  intro l
  induction l with
  | nil => rfl
  | cons x xs ih =>
    simp only [update_one]
    by_cases hx : p x
    · rw [if_pos hx, List.map_cons, List.map_cons, hf x]
    · rw [if_neg hx, List.map_cons, List.map_cons, ih]

theorem mark_annotation_reviewed_annotations (st : Store) (j : Nat) :
    (mark_annotation_reviewed st j).annotations =
      update_one (fun a => a._id == j)
        (fun a => { a with reviewed := true }) st.annotations := rfl

theorem fold_marks_ids (anns : List AnnotationDoc) :
    ∀ (ds : List Nat) (st : Store),
      ((ds.foldr (fun d st' =>
          mark_annotation_reviewed st' ((anns.getD d default)._id))
        st).annotations.map (fun a => a._id)) =
        st.annotations.map (fun a => a._id) := by
  intro ds
  induction ds with
  | nil => intro st; rfl
  | cons d ds ih =>
    intro st
    simp only [List.foldr_cons]
    rw [mark_annotation_reviewed_annotations,
      update_one_map_key (fun a : AnnotationDoc => a._id)
        (fun a => a._id == (anns.getD d default)._id)
        (fun a => { a with reviewed := true }) (fun x => rfl)]
    exact ih st

theorem fold_marks_eq_map (anns : List AnnotationDoc) :
    ∀ (ds : List Nat) (st : Store),
      (st.annotations.map (fun a => a._id)).Nodup →
      ((ds.foldr (fun d st' =>
          mark_annotation_reviewed st' ((anns.getD d default)._id))
        st).annotations =
        st.annotations.map (fun b =>
          if b._id ∈ ds.map (fun d => (anns.getD d default)._id) then
            { b with reviewed := true }
          else b)) := by
  intro ds
  induction ds with
  | nil =>
    intro st h
    simp only [List.foldr_nil, List.map_nil, List.not_mem_nil, if_false]
    symm
    conv_rhs => rw [← List.map_id st.annotations]
    rfl
  | cons d ds ih =>
    intro st h
    simp only [List.foldr_cons, List.map_cons]
    have hnodup2 : (((ds.foldr (fun d st' =>
        mark_annotation_reviewed st' ((anns.getD d default)._id))
          st).annotations.map (fun a => a._id)).Nodup) := by
      rw [fold_marks_ids anns ds st]
      exact h
    rw [mark_annotation_reviewed_annotations,
      update_one_eq_map _ _ (filter_key_length_le_one hnodup2), ih st h,
      List.map_map]
    apply List.map_congr_left
    intro b hb
    simp only [Function.comp_apply]
    by_cases h1 : b._id ∈ ds.map (fun e => (anns.getD e default)._id)
    · rw [if_pos h1, if_pos (List.mem_cons_of_mem _ h1)]
      by_cases h2 : b._id = (anns.getD d default)._id
      · rw [if_pos (show (({ b with reviewed := true } :
            AnnotationDoc)._id == (anns.getD d default)._id) = true by
          simp only [beq_iff_eq]
          exact h2)]
      · rw [if_neg (show ¬ (({ b with reviewed := true } :
            AnnotationDoc)._id == (anns.getD d default)._id) = true by
          simp only [beq_iff_eq]
          exact h2)]
    · rw [if_neg h1]
      by_cases h2 : b._id = (anns.getD d default)._id
      · rw [if_pos (show (b._id == (anns.getD d default)._id) = true by
            simp only [beq_iff_eq]
            exact h2),
          if_pos (List.mem_cons.mpr (Or.inl h2))]
      · rw [if_neg (show ¬ (b._id == (anns.getD d default)._id) = true by
            simp only [beq_iff_eq]
            exact h2),
          if_neg (by
            simp only [List.mem_cons]
            push_neg
            exact ⟨h2, h1⟩)]

theorem key_injective_pos {k : α → Nat} {l : List α}
    (h : (l.map k).Nodup) {i j : Nat} (hi : i < l.length)
    (hj : j < l.length) (heq : k (l[i]) = k (l[j])) : i = j := by
  have hi' : i < (l.map k).length := by simpa using hi
  have hj' : j < (l.map k).length := by simpa using hj
  have hg : (l.map k).get ⟨i, hi'⟩ = (l.map k).get ⟨j, hj'⟩ := by
    simpa using heq
  have := List.nodup_iff_injective_get.mp h hg
  simpa using this

/-- C7 [confirmed]: the emitted id sequence of `ops.format_annotations` is
exactly the ids of the candidates at non-suppressed positions, and every
suppressed candidate is marked `reviewed = true` in the annotation store
(every store record bearing its id is reviewed afterwards) and its id does
not appear in the emitted sequence. -/
theorem c7_suppressed_marked_excluded (st : Store)
    (anns : List AnnotationDoc) (hide : Bool)
    (hstnodup : (st.annotations.map (fun a => a._id)).Nodup)
    (hannsnodup : (anns.map (fun a => a._id)).Nodup) :
    ((format_annotations st anns hide).2.annotations =
      (keep_go (indices_to_remove anns hide) anns 0).map
        (fun a => a._id)) ∧
    ∀ i ∈ indices_to_remove anns hide,
      (∀ b ∈ (format_annotations st anns hide).1.annotations,
        b._id = (anns.getD i default)._id → b.reviewed = true) ∧
      (anns.getD i default)._id ∉
        (format_annotations st anns hide).2.annotations := by
  obtain ⟨hfst, hemit⟩ := format_annotations_eq st anns hide
  refine ⟨hemit, ?_⟩
  intro i hi
  constructor
  · intro b hb hbid
    rw [hfst, fold_marks_eq_map anns _ st hstnodup] at hb
    obtain ⟨b0, hb0mem, hb0⟩ := List.mem_map.mp hb
    have hb0id : b0._id = b._id := by
      by_cases hc : b0._id ∈ (indices_to_remove anns hide).map
          (fun d => (anns.getD d default)._id)
      · rw [← hb0, if_pos hc]
      · rw [← hb0, if_neg hc]
    have hmemid : b0._id ∈ (indices_to_remove anns hide).map
        (fun d => (anns.getD d default)._id) := by
      rw [hb0id, hbid]
      exact List.mem_map_of_mem _ hi
    rw [← hb0, if_pos hmemid]
  · intro hmem
    rw [hemit] at hmem
    obtain ⟨x, hxmem, hxid⟩ := List.mem_map.mp hmem
    obtain ⟨kk, hkk, hkknot, hkkval⟩ :=
      (mem_keep_go anns 0).mp hxmem
    have hilen : i < anns.length := indices_to_remove_lt_length anns hide hi
    have hkeq : (fun a : AnnotationDoc => a._id) (anns[kk]) =
        (fun a : AnnotationDoc => a._id) (anns[i]) := by
      have h1 : anns.getD kk default = anns[kk] :=
        List.getD_eq_getElem anns default hkk
      have h2 : anns.getD i default = anns[i] :=
        List.getD_eq_getElem anns default hilen
      simp only []
      rw [← h1, ← h2, hkkval, hxid]
    have := key_injective_pos hannsnodup hkk hilen hkeq
    rw [this] at hkknot
    simp only [Nat.zero_add] at hkknot
    exact hkknot hi

/-- C7 [witness]: Scenario A — 3 annotations across 2 notes with
`hide_duplicates = True` and two annotations (ids 1 and 3) sharing the same
normalized sentence: exactly one index is suppressed, the emitted sequence
is `[1, 2]` of length 2, and the suppressed annotation (id 3) is marked
reviewed in the store. -/
theorem c7_suppressed_marked_excluded_witness :
    ((format_annotations storeScenarioA annsScenarioA true).2.total = 2 ∧
      (format_annotations storeScenarioA annsScenarioA true).2.annotations
          = [1, 2] ∧
      indices_to_remove annsScenarioA true = [2] ∧
      ((format_annotations storeScenarioA annsScenarioA
        true).1.annotations.getD 2 default).reviewed = true) ∧
    (((format_annotations storeScenarioA annsScenarioA true).2.annotations =
      (keep_go (indices_to_remove annsScenarioA true) annsScenarioA 0).map
        (fun a => a._id)) ∧
    ∀ i ∈ indices_to_remove annsScenarioA true,
      (∀ b ∈ (format_annotations storeScenarioA annsScenarioA
          true).1.annotations,
        b._id = (annsScenarioA.getD i default)._id → b.reviewed = true) ∧
      (annsScenarioA.getD i default)._id ∉
        (format_annotations storeScenarioA annsScenarioA
          true).2.annotations) :=
  ⟨by decide, c7_suppressed_marked_excluded storeScenarioA annsScenarioA
    true (by decide) (by decide)⟩

/-- C1 [counterexample]: the round trip does not restore the pending
bit-vector.  On `storeRoundTrip`/`sessionRoundTrip` (anchor pending,
`skip_after_event = False`), the `new_date` action clears the anchor's
pending bit (and marks it reviewed), and the `del_date` action — which only
calls `db.delete_event_date` and never touches the session — leaves the
bit-vector at `[0, 1]` instead of the original `[1, 1]`, even though the
store's annotation records (event date, reviewed, skip flags) are fully
restored. -/
theorem c1_counterexample :
    sessionRoundTrip.unreviewed_annotations_index = [1, 1] ∧
      Option.map (fun p => p.2.unreviewed_annotations_index)
        (Option.bind (new_date_action false "user" 5 9 storeRoundTrip
          sessionRoundTrip) (fun p => del_date_action p.1 p.2)) =
        some [0, 1] ∧
      Option.map (fun p => p.1.annotations)
        (Option.bind (new_date_action false "user" 5 9 storeRoundTrip
          sessionRoundTrip) (fun p => del_date_action p.1 p.2)) =
        some storeRoundTrip.annotations ∧
      ([0, 1] : List Nat) ≠ [1, 1] := by
  decide

theorem get_event_date_isSome (st : Store) (pid : Nat)
    (x : AnnotationDoc) (hx : x ∈ st.annotations)
    (hpid : x.patient_id = pid) (hev : x.event_date.isSome) :
    (get_event_date st pid).isSome := by
  unfold get_event_date
  have hmemf : x ∈ st.annotations.filter
      (fun a => a.patient_id == pid && a.event_date.isSome) :=
    List.mem_filter.mpr ⟨hx, by simp [hpid, hev]⟩
  rcases hsort : sortBy
      (fun x y => Nat.ble (x.event_date.getD 0) (y.event_date.getD 0))
      (st.annotations.filter
        (fun a => a.patient_id == pid && a.event_date.isSome)) with
    _ | ⟨y, ys⟩
  · exfalso
    have := (mem_sortBy (fun x y : AnnotationDoc =>
      Nat.ble (x.event_date.getD 0) (y.event_date.getD 0))).mpr hmemf
    rw [hsort] at this
    cases this
  · have hymem : y ∈ sortBy
        (fun x y => Nat.ble (x.event_date.getD 0) (y.event_date.getD 0))
        (st.annotations.filter
          (fun a => a.patient_id == pid && a.event_date.isSome)) := by
      rw [hsort]
      exact List.mem_cons_self y ys
    have := (List.mem_filter.mp ((mem_sortBy (fun x y : AnnotationDoc =>
      Nat.ble (x.event_date.getD 0) (y.event_date.getD 0))).mp hymem)).2
    simp only [Bool.and_eq_true] at this
    rw [hsort]
    exact this.2

theorem get_patient_annotation_ids_pos (st : Store) (pid : Nat)
    (x : AnnotationDoc) (hx : x ∈ st.annotations)
    (hpid : x.patient_id = pid) (hrev : x.reviewed = false)
    (hneg : x.isNegated = false) :
    0 < (get_patient_annotation_ids st pid).length := by
  unfold get_patient_annotation_ids
  rw [List.length_map, length_sortBy]
  have hmemf : x ∈ st.annotations.filter
      (fun a => a.patient_id == pid && a.reviewed == false &&
        a.isNegated == false) :=
    List.mem_filter.mpr ⟨hx, by simp [hpid, hrev, hneg]⟩
  exact List.length_pos.mpr (List.ne_nil_of_mem hmemf)

theorem find?_map_key {k : α → Nat} (G : α → α) (hG : ∀ x, k (G x) = k x) :
    ∀ {l : List α}, (l.map k).Nodup → ∀ {a : α}, a ∈ l →
      (l.map G).find? (fun x => k x == k a) = some (G a) := by
  intro l
  induction l with
  | nil => intro _ a ha; cases ha
  | cons x xs ih =>
    intro h a ha
    rw [List.map_cons, List.nodup_cons] at h
    rw [List.map_cons]
    rcases List.mem_cons.mp ha with rfl | ha'
    · rw [List.find?_cons_of_pos _ (by simp [hG])]
    · by_cases hka : k x = k a
      · exfalso
        exact h.1 (hka ▸ List.mem_map_of_mem k ha')
      · rw [List.find?_cons_of_neg _ (by simp [hG, hka])]
        exact ih h.2 ha'

/-- C1 [amended]: for a clean prior state (anchor pending at the cursor,
no prior event date and no skips on the patient, another pending annotation
so the patient is not closed out, `skip_after_event` off), `setEventDate(d)`
followed by `clearEventDate()` restores the annotation store's records
exactly — the anchor's `event_date` is cleared and its `reviewed` flag
reverted to `false`, and every annotation of the patient ends with
`skip = false` (via the spec-modelled `db.delete_event_date`) — but the
session's pending bit-vector is NOT restored: it keeps the anchor's bit
cleared, since the `del_date` action never writes the session. -/
theorem c1_round_trip_restores_store_not_bits (st : Store) (s : Session)
    (pid d fuel : Nat) (user : String) (a b : AnnotationDoc)
    (hpid : s.patient_id = some pid)
    (hid : s.annotations.getD s.index.toNat 0 = a._id)
    (hnodup : (st.annotations.map (fun x => x._id)).Nodup)
    (hamem : a ∈ st.annotations) (hapid : a.patient_id = pid)
    (harev : a.reviewed = false)
    (hbmem : b ∈ st.annotations) (hbid : b._id ≠ a._id)
    (hbpid : b.patient_id = pid) (hbrev : b.reviewed = false)
    (hbneg : b.isNegated = false)
    (hclean : ∀ c ∈ st.annotations, c.patient_id = pid →
      c.event_date = none ∧ c.skip = false)
    (hbit : s.unreviewed_annotations_index.getD s.index.toNat 0 = 1) :
    ∃ stA sA stB sB,
      new_date_action false user d fuel st s = some (stA, sA) ∧
      del_date_action stA sA = some (stB, sB) ∧
      stB.annotations = st.annotations ∧
      sB.unreviewed_annotations_index =
        s.unreviewed_annotations_index.set s.index.toNat 0 := by
  have hF1 := update_one_eq_map
    (fun x : AnnotationDoc => x._id == a._id)
    (fun x => { x with event_date := some d })
    (filter_key_length_le_one hnodup)
  have hann1 : (update_annotation_date st a._id d).annotations =
      st.annotations.map (fun x =>
        if x._id == a._id then { x with event_date := some d } else x) :=
    hF1
  have hids1 : ((update_annotation_date st a._id d).annotations.map
      (fun x => x._id)) = st.annotations.map (fun x => x._id) := by
    show ((update_one _ _ st.annotations).map (fun x => x._id)) = _
    exact update_one_map_key (fun x : AnnotationDoc => x._id)
      (fun x => x._id == a._id)
      (fun x => { x with event_date := some d }) (fun x => rfl)
      st.annotations
  have hnodup1 : ((update_annotation_date st a._id d).annotations.map
      (fun x => x._id)).Nodup := by
    rw [hids1]
    exact hnodup
  have hF2 := update_one_eq_map
    (fun x : AnnotationDoc => x._id == a._id)
    (fun x => { x with reviewed := true })
    (filter_key_length_le_one hnodup1)
  have hann2 : (mark_annotation_reviewed (update_annotation_date st a._id d)
      a._id).annotations =
      st.annotations.map (fun x =>
        if x._id == a._id then
          { x with event_date := some d, reviewed := true }
        else x) := by
    rw [mark_annotation_reviewed_annotations, hF2, hann1, List.map_map]
    apply List.map_congr_left
    intro x hx
    simp only [Function.comp_apply]
    by_cases hxa : x._id = a._id <;> simp [hxa]
  have hbim : b ∈ (mark_annotation_reviewed
      (update_annotation_date st a._id d) a._id).annotations := by
    rw [hann2]
    have hbeq : b = (fun x : AnnotationDoc =>
        if x._id == a._id then
          { x with event_date := some d, reviewed := true }
        else x) b := by
      simp [hbid]
    rw [hbeq]
    exact List.mem_map_of_mem _ hbmem
  have haim : ({ a with event_date := some d, reviewed := true } :
      AnnotationDoc) ∈ (mark_annotation_reviewed
      (update_annotation_date st a._id d) a._id).annotations := by
    rw [hann2]
    have haeq : ({ a with event_date := some d, reviewed := true } :
        AnnotationDoc) = (fun x : AnnotationDoc =>
        if x._id == a._id then
          { x with event_date := some d, reviewed := true }
        else x) a := by
      simp
    rw [haeq]
    exact List.mem_map_of_mem _ hamem
  have hcond1 : ((get_patient_annotation_ids (mark_annotation_reviewed
      (update_annotation_date st a._id d) a._id) pid).length == 0) =
      false := by
    have hpos := get_patient_annotation_ids_pos _ pid b hbim hbpid hbrev
      hbneg
    simp only [beq_eq_false_iff_ne]
    omega
  have hcond2 : (get_event_date (mark_annotation_reviewed
      (update_annotation_date st a._id d) a._id) pid).isSome = true :=
    get_event_date_isSome _ pid _ haim hapid rfl
  have hids2 : ((mark_annotation_reviewed (update_annotation_date st a._id
      d) a._id).annotations.map (fun x => x._id)) =
      st.annotations.map (fun x => x._id) := by
    rw [hann2, List.map_map]
    apply List.map_congr_left
    intro x hx
    simp only [Function.comp_apply]
    by_cases hxa : x._id = a._id <;> simp [hxa]
  have hcond3 : get_annotation_by_id (mark_annotation_reviewed
      (update_annotation_date st a._id d) a._id) a._id =
      some ({ a with event_date := some d, reviewed := true } :
        AnnotationDoc) := by
    unfold get_annotation_by_id
    rw [hann2]
    have hfind := find?_map_key
      (fun x : AnnotationDoc =>
        if x._id == a._id then
          { x with event_date := some d, reviewed := true }
        else x)
      (fun x => by
        by_cases hx : x._id = a._id <;> simp [hx])
      hnodup hamem
    have hred : (fun x : AnnotationDoc =>
        if x._id == a._id then
          { x with event_date := some d, reviewed := true }
        else x) a = ({ a with event_date := some d, reviewed := true } :
          AnnotationDoc) := by
      simp
    rw [hred] at hfind
    exact hfind
  have hstep : new_date_action false user d fuel st s =
      some (mark_patient_reviewed (mark_note_reviewed
        (mark_annotation_reviewed (update_annotation_date st a._id d)
          a._id) ({ a with event_date := some d, reviewed := true } :
            AnnotationDoc).note_id user) pid user,
        { s with unreviewed_annotations_index :=
            s.unreviewed_annotations_index.set s.index.toNat 0 }) := by
    have hupd : update_event_date st pid d a._id false =
        update_annotation_date st a._id d := by
      simp [update_event_date]
    simp only [new_date_action, hpid, hid, hupd,
      adjudicate_annotation_step, Bool.and_false, Bool.false_eq_true,
      if_false, hbit, hcond1, hcond2, hcond3]
    rfl
  refine ⟨_, _,
    delete_event_date (mark_patient_reviewed (mark_note_reviewed
      (mark_annotation_reviewed (update_annotation_date st a._id d)
        a._id) ({ a with event_date := some d, reviewed := true } :
          AnnotationDoc).note_id user) pid user) pid,
    { s with unreviewed_annotations_index :=
        s.unreviewed_annotations_index.set s.index.toNat 0 },
    hstep, by simp only [del_date_action, hpid], ?_, rfl⟩
  show (delete_event_date _ pid).annotations = st.annotations
  have hann4 : (mark_patient_reviewed (mark_note_reviewed
      (mark_annotation_reviewed (update_annotation_date st a._id d)
        a._id) ({ a with event_date := some d, reviewed := true } :
          AnnotationDoc).note_id user) pid user).annotations =
      st.annotations.map (fun x =>
        if x._id == a._id then
          { x with event_date := some d, reviewed := true }
        else x) := hann2
  simp only [delete_event_date, hann4, List.map_map]
  conv_rhs => rw [← List.map_id st.annotations]
  apply List.map_congr_left
  intro x hx
  simp only [Function.comp_apply, id_eq]
  by_cases hxa : x._id = a._id
  · have hxeq : x = a := nodup_key_inj hnodup hx hamem hxa
    subst hxeq
    obtain ⟨hev, hskip⟩ := hclean x hx hapid
    obtain ⟨x1, x2, x3, x4, x5, x6, x7, x8, x9, x10, x11⟩ := x
    simp only at hapid harev hev hskip
    subst hapid
    subst harev
    subst hev
    subst hskip
    simp
  · by_cases hxpid : x.patient_id = pid
    · obtain ⟨hev, hskip⟩ := hclean x hx hxpid
      simp [hxa, hxpid, hev, hskip]
    · simp [hxa, hxpid]

/-- C1 [witness]: the amended theorem at the concrete round-trip state:
the store's annotations return to their original records while the
bit-vector ends as `[0, 1]`, the anchor bit cleared. -/
theorem c1_round_trip_restores_store_not_bits_witness :
    ∃ stA sA stB sB,
      new_date_action false "user" 5 9 storeRoundTrip sessionRoundTrip =
          some (stA, sA) ∧
      del_date_action stA sA = some (stB, sB) ∧
      stB.annotations = storeRoundTrip.annotations ∧
      sB.unreviewed_annotations_index =
        sessionRoundTrip.unreviewed_annotations_index.set
          sessionRoundTrip.index.toNat 0 :=
  c1_round_trip_restores_store_not_bits storeRoundTrip sessionRoundTrip
    1 5 9 "user" (mkAnn 1 1 1 0 "s1" 0 0) (mkAnn 2 1 1 0 "s2" 1 10)
    (by decide) (by decide) (by decide) (by decide) (by decide) (by decide)
    (by decide) (by decide) (by decide) (by decide) (by decide) (by decide)
    (by decide)

/-- C2 [witness]: the amended theorem at a concrete store in which neither
of patient 7's two annotations holds a date yet; setting a date on one
preserves the invariant. -/
theorem c2_update_date_preserves_when_sole_witness :
    at_most_one_event_date
      (update_annotation_date
        { annotations := [mkAnn 1 7 1 0 "s1" 0 0, mkAnn 2 7 1 0 "s2" 1 10],
          patients := [mkPatient 7 false false], notes := [] } 1 5) :=
  c2_update_date_preserves_when_sole _ 1 5 (by decide) (by decide)
    (by decide)

end Cedars
